import Mathlib

/-!
Verification of the genome clustering engine of `cluster_mash_distances.py`
(single-linkage clustering of genome identifiers from a streamed MASH
distance file, via a dictionary-based union-find with path compression and
union by rank).

The Python source is embedded shallowly:

* Python strings are modelled as `String` / `List Char`; the helper string
  operations (`str.strip`, `str.split`, `str.replace(old, '')`) are
  re-implemented character by character with Python's semantics.
* `float(token)` is modelled by `parseFloatChars`, which follows CPython's
  accepted grammar (optional surrounding whitespace, optional sign,
  case-insensitive `inf` / `infinity` / `nan`, decimal literals with
  optional fraction, exponent and underscores between digits).  Finite
  values are represented exactly as rationals; the claims under study only
  compare parsed values with a threshold, which is unaffected by IEEE
  rounding.  A failed parse models the `ValueError` caught by the script.
* The Python `dict` is modelled as an insertion-ordered association list
  (`alookup` / `dictSet`): assignment to an existing key keeps its
  position, assignment to a new key appends it.  This order matters
  because the script iterates over `self.parent` and relies on `sorted`
  being stable.
* The recursive `UnionFind.find` with path compression is modelled with
  explicit fuel (`findAux`); under the forest well-formedness invariant
  the fuel `parent.length + 1` is proved sufficient.
* The `main` loop is `processLine` folded over the input lines.  The
  script treats the first line specially, but (as one checks line by
  line) the effect on the engine state of the first-line branch coincides
  with the generic per-line branch, so a single uniform `processLine` is
  a faithful model of both.
* Python exceptions that abort the run (`max(sizes)` on an empty list)
  are modelled by `Option`, with `none` for the raised `ValueError`.
-/

/-! ## Python string helpers -/

/-- Whitespace characters stripped by Python's `str.strip()` (ASCII part). -/
def pyIsSpace (c : Char) : Bool :=
  c = ' ' || c = '\t' || c = '\n' || c = '\x0d' || c = '\x0b' || c = '\x0c'

/-- Python `str.strip()` on a character list. -/
def stripChars (l : List Char) : List Char :=
  ((l.dropWhile pyIsSpace).reverse.dropWhile pyIsSpace).reverse

/-- Python `str.split(sep)` with a one-character separator: no collapsing of
empty fields, `''.split(sep) = ['']`. -/
def splitOnCharAux (sep : Char) : List Char → List Char → List (List Char)
  | [], acc => [acc.reverse]
  | c :: rest, acc =>
    if c = sep then acc.reverse :: splitOnCharAux sep rest []
    else splitOnCharAux sep rest (c :: acc)

def splitOnChar (sep : Char) (l : List Char) : List (List Char) :=
  splitOnCharAux sep l []

/-- Python `s.split('/')[-1]`: the final path segment. -/
def lastSegment (l : List Char) : List Char :=
  (splitOnChar '/' l).getLastD []

/-- Remove a pattern from the front of a list, if it is there. -/
def stripPat : List Char → List Char → Option (List Char)
  | [], l => some l
  | _ :: _, [] => none
  | p :: ps, c :: cs => if p = c then stripPat ps cs else none

theorem stripPat_length : ∀ pat l r, stripPat pat l = some r →
    r.length + pat.length = l.length := by
  intro pat
  induction pat with
  | nil => intro l r h; simp [stripPat] at h; simp [h]
  | cons p ps ih =>
    intro l r h
    cases l with
    | nil => simp [stripPat] at h
    | cons c cs =>
      simp only [stripPat] at h
      split at h
      · have := ih cs r h
        simp [List.length_cons]; omega
      · exact absurd h (by simp)

/-- Python `s.replace(old, '')` for a non-empty `old`: delete every
non-overlapping occurrence, scanning left to right.  The `fuel` argument
only makes the recursion structural (each step strictly shortens the
string, so `l.length` fuel is always enough); it is not part of the
modelled code. -/
def removeAllAux : Nat → List Char → List Char → List Char
  | 0, _, l => l
  | _ + 1, [], l => l
  | _ + 1, _ :: _, [] => []
  | fuel + 1, p :: ps, c :: cs =>
    match stripPat (p :: ps) (c :: cs) with
    | some rest => removeAllAux fuel (p :: ps) rest
    | none => c :: removeAllAux fuel (p :: ps) cs

def removeAll (pat : List Char) (l : List Char) : List Char :=
  removeAllAux l.length pat l

/-! ## Canonicalization of genome tokens

The script computes
`parts[i].split('/')[-1].replace('.fa', '').replace('.fasta', '').replace('.fna', '')`.
Note that `str.replace` deletes every occurrence of the pattern anywhere in
the string, not only a trailing extension. -/

def faPat : List Char := ['.', 'f', 'a']
def fastaPat : List Char := ['.', 'f', 'a', 's', 't', 'a']
def fnaPat : List Char := ['.', 'f', 'n', 'a']

def canonChars (l : List Char) : List Char :=
  removeAll fnaPat (removeAll fastaPat (removeAll faPat (lastSegment l)))

/-- Canonicalization of a source/target token as the script performs it. -/
def canonicalize (s : String) : String :=
  String.mk (canonChars s.data)

/-- Modelled from the spec: take the final path segment, then strip one
trailing `.fa`, `.fasta`, or `.fna` suffix (first match from this fixed
ordered list wins).  This is the canonicalization the specification
describes; it is compared against `canonicalize`, the one the code
performs. -/
def stripSuffix1 (pat l : List Char) : Option (List Char) :=
  (stripPat pat.reverse l.reverse).map List.reverse

def canonSpecChars (l : List Char) : List Char :=
  let seg := lastSegment l
  match stripSuffix1 faPat seg with
  | some r => r
  | none =>
    match stripSuffix1 fastaPat seg with
    | some r => r
    | none =>
      match stripSuffix1 fnaPat seg with
      | some r => r
      | none => seg

def canonSpec (s : String) : String :=
  String.mk (canonSpecChars s.data)

example : canonicalize "dir/A.fasta" = "Asta" := by decide
example : canonicalize "A.fa" = "A" := by decide
example : canonSpec "dir/A.fasta" = "A" := by decide
example : canonSpec "A.fa" = "A" := by decide
example : canonSpec "A" = "A" := by decide

/-! ## The value of Python `float(token)`

Finite values are modelled exactly as rationals.  The special values
`inf`, `-inf` and `nan` are first-class: Python's `float()` accepts them,
and the script's comparison `distance <= args.threshold` is `False` for
`inf` and `nan` and `True` for `-inf`. -/

inductive FloatVal where
  | finite (q : ℚ)
  | posInf
  | negInf
  | nan
deriving DecidableEq

/-- Comparison `d <= t` between a parsed distance and the (finite)
threshold, with IEEE semantics for the special values. -/
def leFloat (d : FloatVal) (t : ℚ) : Bool :=
  match d with
  | FloatVal.finite q => decide (q ≤ t)
  | FloatVal.posInf => false
  | FloatVal.negInf => true
  | FloatVal.nan => false

def toLowerChar (c : Char) : Char :=
  if 'A' ≤ c && c ≤ 'Z' then Char.ofNat (c.toNat + 32) else c

/-- Optional sign; returns (isNegative, rest). -/
def parseSign : List Char → Bool × List Char
  | '-' :: r => (true, r)
  | '+' :: r => (false, r)
  | l => (false, l)

/-- A run of decimal digits in which single underscores may appear between
two digits (Python numeric-literal rule).  Returns the accumulated value,
the number of digits consumed, and the rest.  A trailing or doubled
underscore is left in the rest, which makes the whole parse fail later
because the input must be consumed entirely. -/
def digitsRunAux : Nat → List Char → Nat → Nat → Nat × Nat × List Char
  | _, [], acc, cnt => (acc, cnt, [])
  | 0, l, acc, cnt => (acc, cnt, l)
  | fuel + 1, c :: rest, acc, cnt =>
    if c.isDigit then digitsRunAux fuel rest (acc * 10 + (c.toNat - 48)) (cnt + 1)
    else if c = '_' then
      match rest with
      | d :: rest2 =>
        if d.isDigit then digitsRunAux fuel rest2 (acc * 10 + (d.toNat - 48)) (cnt + 1)
        else (acc, cnt, c :: rest)
      | [] => (acc, cnt, [c])
    else (acc, cnt, c :: rest)

def digitsRun (l : List Char) (acc cnt : Nat) : Nat × Nat × List Char :=
  digitsRunAux l.length l acc cnt

/-- Mantissa and exponent assembled into an exact rational, as a single
normalized fraction (`mkRat` keeps the computation kernel-reducible). -/
def ratOfParts (neg : Bool) (ip fp fc : Nat) (eneg : Bool) (ev : Nat) : ℚ :=
  let n : Int := (ip * 10 ^ fc + fp) * 10 ^ (if eneg then 0 else ev)
  let d : Nat := 10 ^ fc * (if eneg then 10 ^ ev else 1)
  mkRat (if neg then -n else n) d

/-- Exponent part after `e`/`E`: optional sign then at least one digit,
consuming the whole rest. -/
def parseExpPart (l : List Char) : Option (Bool × Nat)  :=
  let se := parseSign l
  match digitsRun se.2 0 0 with
  | (ev, ec, []) => if ec = 0 then none else some (se.1, ev)
  | _ => none

/-- Numeric literal: `digits [. [digits]] [exp]` or `. digits [exp]`. -/
def parseNumber (neg : Bool) (l : List Char) : Option FloatVal :=
  match digitsRun l 0 0 with
  | (ip, ic, rest1) =>
    match rest1 with
    | '.' :: rest2 =>
      match digitsRun rest2 0 0 with
      | (fp, fc, rest3) =>
        if ic = 0 && fc = 0 then none
        else
          match rest3 with
          | [] => some (FloatVal.finite (ratOfParts neg ip fp fc false 0))
          | 'e' :: rest4 =>
            match parseExpPart rest4 with
            | some (eneg, ev) =>
              some (FloatVal.finite (ratOfParts neg ip fp fc eneg ev))
            | none => none
          | _ => none
    | [] => if ic = 0 then none else some (FloatVal.finite (ratOfParts neg ip 0 0 false 0))
    | 'e' :: rest4 =>
      if ic = 0 then none
      else
        match parseExpPart rest4 with
        | some (eneg, ev) => some (FloatVal.finite (ratOfParts neg ip 0 0 eneg ev))
        | none => none
    | _ => none

/-- The value of Python `float(token)`: `some` a value, or `none` for the
`ValueError` the script catches.  Whitespace is stripped, an optional sign
read, and the rest compared case-insensitively against `inf`, `infinity`,
`nan`, or parsed as a decimal literal. -/
def parseFloatChars (l0 : List Char) : Option FloatVal :=
  let l := stripChars l0
  match l with
  | [] => none
  | _ =>
    let sr := parseSign l
    let low := sr.2.map toLowerChar
    if low = ['i', 'n', 'f'] || low = ['i', 'n', 'f', 'i', 'n', 'i', 't', 'y'] then
      some (if sr.1 then FloatVal.negInf else FloatVal.posInf)
    else if low = ['n', 'a', 'n'] then some FloatVal.nan
    else parseNumber sr.1 low

example : parseFloatChars "0.01".data = some (FloatVal.finite (mkRat 1 100)) := by decide
example : parseFloatChars "0.05".data = some (FloatVal.finite (mkRat 1 20)) := by decide
example : parseFloatChars "1e-2".data = some (FloatVal.finite (mkRat 1 100)) := by decide
example : parseFloatChars "inf".data = some FloatVal.posInf := by decide
example : parseFloatChars " -Inf ".data = some FloatVal.negInf := by decide
example : parseFloatChars "NaN".data = some FloatVal.nan := by decide
example : parseFloatChars "abc".data = none := by decide
example : parseFloatChars "".data = none := by decide
example : parseFloatChars "1_0".data = some (FloatVal.finite (mkRat 10 1)) := by decide
example : parseFloatChars "1_".data = none := by decide
example : parseFloatChars "1.".data = some (FloatVal.finite (mkRat 1 1)) := by decide
example : parseFloatChars ".".data = none := by decide
example : parseFloatChars ".5e1".data = some (FloatVal.finite (mkRat 5 1)) := by decide

/-! ## Insertion-ordered dictionaries (Python `dict`) -/

/-- Lookup in an insertion-ordered association list. -/
def alookup {β : Type} : List (String × β) → String → Option β
  | [], _ => none
  | (k, v) :: rest, x => if k = x then some v else alookup rest x

/-- Python `d[x] = v`: update in place if the key exists (keeping its
position), otherwise append the new key at the end. -/
def dictSet {β : Type} : List (String × β) → String → β → List (String × β)
  | [], x, v => [(x, v)]
  | (k, w) :: rest, x, v =>
    if k = x then (x, v) :: rest else (k, w) :: dictSet rest x v

def keysList {β : Type} (l : List (String × β)) : List String :=
  l.map Prod.fst

/-! ## The `UnionFind` class -/

structure UnionFind where
  parent : List (String × String)
  rank : List (String × Nat)
deriving DecidableEq

def UnionFind.empty : UnionFind := ⟨[], []⟩

/-- One step of the recursive `find` with path compression:

    def find(self, x):
        if x not in self.parent:
            self.parent[x] = x
            self.rank[x] = 0
        if self.parent[x] != x:
            self.parent[x] = self.find(self.parent[x])
        return self.parent[x]

The fuel only bounds the recursion depth to keep it structural; under the
forest invariant the fuel used by `UnionFind.find` is proved sufficient. -/
def UnionFind.findAux : Nat → UnionFind → String → UnionFind × String
  | 0, s, x => (s, x)
  | fuel + 1, s, x =>
    let s1 : UnionFind :=
      if (alookup s.parent x).isSome then s
      else ⟨dictSet s.parent x x, dictSet s.rank x 0⟩
    let px := (alookup s1.parent x).getD x
    if px = x then (s1, x)
    else
      let res := UnionFind.findAux fuel s1 px
      (⟨dictSet res.1.parent x res.2, res.1.rank⟩, res.2)

def UnionFind.find (s : UnionFind) (x : String) : UnionFind × String :=
  UnionFind.findAux (s.parent.length + 1) s x

/-- Translation of `UnionFind.union`:

    px, py = self.find(x), self.find(y)
    if px == py: return
    if self.rank[px] < self.rank[py]: px, py = py, px
    self.parent[py] = px
    if self.rank[px] == self.rank[py]: self.rank[px] += 1
-/
def UnionFind.union (s : UnionFind) (x y : String) : UnionFind :=
  let fx := s.find x
  let fy := fx.1.find y
  let s2 := fy.1
  let px0 := fx.2
  let py0 := fy.2
  if px0 = py0 then s2
  else
    let rx := (alookup s2.rank px0).getD 0
    let ry := (alookup s2.rank py0).getD 0
    let px := if rx < ry then py0 else px0
    let py := if rx < ry then px0 else py0
    let s3 : UnionFind := ⟨dictSet s2.parent py px, s2.rank⟩
    let rpx := (alookup s3.rank px).getD 0
    let rpy := (alookup s3.rank py).getD 0
    if rpx = rpy then ⟨s3.parent, dictSet s3.rank px (rpx + 1)⟩ else s3

/-- Append `x` to the member list of `r` in a `defaultdict(list)` that is
being built up (new roots are appended at the end, in first-seen order). -/
def addMember : List (String × List String) → String → String → List (String × List String)
  | [], r, x => [(r, [x])]
  | (k, ms) :: rest, r, x =>
    if k = r then (k, ms ++ [x]) :: rest else (k, ms) :: addMember rest r x

/-- Translation of `UnionFind.get_clusters`: iterate over the keys of
`self.parent` (in insertion order), group each key under its root.  The
`find` calls compress paths, so the forest is threaded through. -/
def UnionFind.get_clusters (s : UnionFind) : UnionFind × List (String × List String) :=
  (keysList s.parent).foldl
    (fun acc x =>
      let f := acc.1.find x
      (f.1, addMember acc.2 f.2 x))
    (s, [])

/-! ## The clustering driver (`main` loop) -/

structure EngineState where
  uf : UnionFind
  genomes : List String
  edges_below_threshold : Nat
  total_edges : Nat
deriving DecidableEq

/-- Python `set.add`; only membership and cardinality of `genomes` are
ever observed, so the insertion-ordered list is a faithful model. -/
def insertNew (l : List String) (x : String) : List String :=
  if x ∈ l then l else l ++ [x]

def initState : EngineState := ⟨UnionFind.empty, [], 0, 0⟩

/-- The Distance Record Parser: strip the line, skip blank and `#` lines,
split on tabs, require at least three fields, canonicalize the two
endpoint tokens and parse the distance.  `none` models every skipped or
malformed line (the `continue` branches and the caught `ValueError` /
`IndexError`).  In the script this code sits inline in `main`; because
`float(parts[2])` is evaluated before any state mutation, a failed line
has no other effect, so parsing factors out as a pure function. -/
def parsedLine (raw : String) : Option (String × String × FloatVal) :=
  let line := stripChars raw.data
  if line = [] then none
  else if line.head? = some '#' then none
  else
    let parts := splitOnChar '\t' line
    if parts.length < 3 then none
    else
      match parseFloatChars (parts.getD 2 []) with
      | none => none
      | some d =>
        some (String.mk (canonChars (parts.getD 0 [])),
              String.mk (canonChars (parts.getD 1 [])), d)

/-- Processing of one raw input line by the `main` loop: on a parsed edge,
add both genomes to the discovered set, register both endpoints in the
forest (`uf.find`), and union them when they are distinct and the distance
is at or below the threshold; count the edge.  On a skipped or malformed
line the state is returned unchanged. -/
def processLine (t : ℚ) (s : EngineState) (raw : String) : EngineState :=
  match parsedLine raw with
  | none => s
  | some (g1, g2, d) =>
    let genomes1 := insertNew (insertNew s.genomes g1) g2
    let u1 := (s.uf.find g1).1
    let u2 := (u1.find g2).1
    if g1 ≠ g2 ∧ leFloat d t then
      ⟨u2.union g1 g2, genomes1, s.edges_below_threshold + 1, s.total_edges + 1⟩
    else
      ⟨u2, genomes1, s.edges_below_threshold, s.total_edges + 1⟩

/-- The whole ingestion phase: fold the per-line step over the stream. -/
def runEngine (t : ℚ) (lines : List String) : EngineState :=
  lines.foldl (processLine t) initState

/-! ## Cluster assignment builder -/

def clustersOf (s : EngineState) : List (String × List String) :=
  (UnionFind.get_clusters s.uf).2

/-- Stable insertion of a cluster into a size-descending list: the new
element (which comes earlier in the original order) is placed before the
first element of not larger size.  `sortClusters` is therefore the stable
sort by member count descending, which is exactly what
`sorted(clusters.items(), key=lambda x: len(x[1]), reverse=True)`
computes (Python's `sorted` is stable, and a stable sort by a fixed key
is unique). -/
def insertDesc (c : String × List String) :
    List (String × List String) → List (String × List String)
  | [] => [c]
  | d :: rest =>
    if d.2.length ≤ c.2.length then c :: d :: rest else d :: insertDesc c rest

def sortClusters : List (String × List String) → List (String × List String)
  | [] => []
  | c :: rest => insertDesc c (sortClusters rest)

/-- Lexicographic comparison of strings by code point, Python `<`. -/
def lexLtChars : List Char → List Char → Bool
  | [], [] => false
  | [], _ :: _ => true
  | _ :: _, [] => false
  | a :: xs, b :: ys =>
    if a.toNat < b.toNat then true
    else if b.toNat < a.toNat then false
    else lexLtChars xs ys

def insertStr (x : String) : List String → List String
  | [] => [x]
  | y :: rest => if lexLtChars x.data y.data then x :: y :: rest else y :: insertStr x rest

/-- Python `sorted` on a list of distinct strings. -/
def sortStrings : List String → List String
  | [] => []
  | x :: l => insertStr x (sortStrings l)

/-- The cluster membership table: for each cluster (in the order of
`sorted_clusters`, whose index is the `cluster_id` assigned by
`cluster_id_map`) and each member genome (sorted), the row
`(genome, cluster_id, cluster_size)`. -/
def assignmentOf (s : EngineState) : List (String × Nat × Nat) :=
  ((sortClusters (clustersOf s)).enum.map
    (fun p => (sortStrings p.2.2).map (fun g => (g, p.1, p.2.2.length)))).flatten

/-- Lookup of one genome's `(cluster_id, cluster_size)` row. -/
def assignOf (s : EngineState) (g : String) : Option (Nat × Nat) :=
  alookup (assignmentOf s) g

/-! ## Cluster statistics -/

structure ClusterStatistics where
  total_genomes : Nat
  total_clusters : Nat
  singleton_clusters : Nat
  largest : Nat
  mean_num : Nat
  mean_den : Nat
deriving DecidableEq

/-- The statistics block of `main`.  `max(sizes)` raises `ValueError` on an
empty list (and `sum(sizes)/len(sizes)` would divide by zero), which is
modelled by `none`; the mean is kept as the exact fraction
`sum sizes / length sizes`. -/
def reportStats (s : EngineState) : Option ClusterStatistics :=
  let cl := clustersOf s
  let sizes := cl.map (fun c => c.2.length)
  match sizes.max? with
  | none => none
  | some m =>
    some ⟨s.genomes.length, cl.length, (sizes.filter (fun n => n = 1)).length,
          m, sizes.sum, sizes.length⟩

/-! ## Sanity checks from the specification's scenarios -/

example :
    assignOf (runEngine (mkRat 1 20)
      ["A\tB\t0.01", "B\tC\t0.01", "D\tE\t0.9"]) "A" = some (0, 3) := by decide

example :
    assignOf (runEngine (mkRat 1 20)
      ["A\tB\t0.01", "B\tC\t0.01", "D\tE\t0.9"]) "D" = some (1, 1) ∧
    assignOf (runEngine (mkRat 1 20)
      ["A\tB\t0.01", "B\tC\t0.01", "D\tE\t0.9"]) "E" = some (2, 1) := by decide

example :
    (runEngine (mkRat 1 20) ["A\tB\t0.2"]).total_edges = 1 ∧
    (runEngine (mkRat 1 20) ["A\tB\t0.2"]).edges_below_threshold = 0 ∧
    assignOf (runEngine (mkRat 1 20) ["A\tB\t0.2"]) "A" = some (0, 1) := by decide

example :
    (runEngine (mkRat 1 20) ["X\tX\t0.0"]).total_edges = 1 ∧
    assignOf (runEngine (mkRat 1 20) ["X\tX\t0.0"]) "X" = some (0, 1) := by decide

/-! ## Association-list lemmas -/

theorem keysList_nil {β : Type} : keysList ([] : List (String × β)) = [] := rfl

theorem keysList_cons {β : Type} (k : String) (w : β) (tl : List (String × β)) :
    keysList ((k, w) :: tl) = k :: keysList tl := rfl

theorem keysList_append {β : Type} (l m : List (String × β)) :
    keysList (l ++ m) = keysList l ++ keysList m := by
  simp [keysList]

theorem alookup_dictSet_self {β : Type} (l : List (String × β)) (x : String) (v : β) :
    alookup (dictSet l x v) x = some v := by
  induction l with
  | nil => simp [dictSet, alookup]
  | cons hd tl ih =>
    obtain ⟨k, w⟩ := hd
    by_cases h : k = x
    · simp [dictSet, h, alookup]
    · simp [dictSet, h, alookup, ih]

theorem alookup_dictSet_ne {β : Type} (l : List (String × β)) (x z : String) (v : β)
    (h : z ≠ x) : alookup (dictSet l x v) z = alookup l z := by
  induction l with
  | nil =>
    simp [dictSet, alookup, Ne.symm h]
  | cons hd tl ih =>
    obtain ⟨k, w⟩ := hd
    by_cases hk : k = x
    · subst hk
      simp [dictSet, alookup, Ne.symm h]
    · by_cases hz : k = z
      · simp [dictSet, hk, alookup, hz, h]
      · simp [dictSet, hk, alookup, hz, ih]

theorem mem_keysList_of_alookup {β : Type} (l : List (String × β)) (x : String) (v : β)
    (h : alookup l x = some v) : x ∈ keysList l := by
  induction l with
  | nil => simp [alookup] at h
  | cons hd tl ih =>
    obtain ⟨k, w⟩ := hd
    rw [keysList_cons, List.mem_cons]
    by_cases hk : k = x
    · exact Or.inl hk.symm
    · simp only [alookup, if_neg hk] at h
      exact Or.inr (ih h)

theorem alookup_isSome_iff {β : Type} (l : List (String × β)) (x : String) :
    (alookup l x).isSome = true ↔ x ∈ keysList l := by
  constructor
  · intro h
    obtain ⟨v, hv⟩ := Option.isSome_iff_exists.mp h
    exact mem_keysList_of_alookup l x v hv
  · intro h
    induction l with
    | nil => simp [keysList_nil] at h
    | cons hd tl ih =>
      obtain ⟨k, w⟩ := hd
      by_cases hk : k = x
      · simp [alookup, hk]
      · rw [keysList_cons, List.mem_cons] at h
        rcases h with h | h
        · exact absurd h.symm hk
        · simp only [alookup, if_neg hk]
          exact ih h

theorem alookup_none_iff {β : Type} (l : List (String × β)) (x : String) :
    alookup l x = none ↔ x ∉ keysList l := by
  rw [← alookup_isSome_iff]
  cases alookup l x <;> simp

theorem keysList_dictSet_mem {β : Type} (l : List (String × β)) (x : String) (v : β)
    (h : x ∈ keysList l) : keysList (dictSet l x v) = keysList l := by
  induction l with
  | nil => simp [keysList_nil] at h
  | cons hd tl ih =>
    obtain ⟨k, w⟩ := hd
    by_cases hk : k = x
    · subst hk
      simp [dictSet, keysList_cons]
    · rw [keysList_cons, List.mem_cons] at h
      rcases h with h | h
      · exact absurd h.symm hk
      · simp only [dictSet, if_neg hk]
        rw [keysList_cons, keysList_cons, ih h]

theorem dictSet_notmem {β : Type} (l : List (String × β)) (x : String) (v : β)
    (h : x ∉ keysList l) : dictSet l x v = l ++ [(x, v)] := by
  induction l with
  | nil => simp [dictSet]
  | cons hd tl ih =>
    obtain ⟨k, w⟩ := hd
    rw [keysList_cons, List.mem_cons] at h
    push_neg at h
    simp only [dictSet, if_neg (fun hh : k = x => h.1 hh.symm), List.cons_append]
    rw [ih h.2]

theorem alookup_append_left {β : Type} (l m : List (String × β)) (x : String)
    (h : x ∈ keysList l) : alookup (l ++ m) x = alookup l x := by
  induction l with
  | nil => simp [keysList_nil] at h
  | cons hd tl ih =>
    obtain ⟨k, w⟩ := hd
    by_cases hk : k = x
    · simp [alookup, hk]
    · rw [keysList_cons, List.mem_cons] at h
      rcases h with h | h
      · exact absurd h.symm hk
      · simp only [List.cons_append, alookup, if_neg hk]
        exact ih h

theorem alookup_append_right {β : Type} (l m : List (String × β)) (x : String)
    (h : x ∉ keysList l) : alookup (l ++ m) x = alookup m x := by
  induction l with
  | nil => simp
  | cons hd tl ih =>
    obtain ⟨k, w⟩ := hd
    rw [keysList_cons, List.mem_cons] at h
    push_neg at h
    simp only [List.cons_append, alookup, if_neg (fun hh : k = x => h.1 hh.symm)]
    exact ih h.2

/-! ## Parent-chain reachability

`ReachesN p n x r` says: starting from `x` and following `p`'s parent
pointers, after exactly `n` proper steps one arrives at the root `r`
(a key that is its own parent).  `Reaches` hides the step count.  This is
the semantic content of the forest: path compression rewires pointers but
never changes any node's root. -/

inductive ReachesN (p : List (String × String)) : Nat → String → String → Prop where
  | root (x : String) : alookup p x = some x → ReachesN p 0 x x
  | step (n : Nat) (x y r : String) : alookup p x = some y → x ≠ y →
      ReachesN p n y r → ReachesN p (n + 1) x r

def Reaches (p : List (String × String)) (x r : String) : Prop :=
  ∃ n, ReachesN p n x r

theorem reachesN_det {p : List (String × String)} :
    ∀ {n m x r1 r2}, ReachesN p n x r1 → ReachesN p m x r2 → n = m ∧ r1 = r2 := by
  intro n m x r1 r2 h1
  induction h1 generalizing m r2 with
  | root z hz =>
    intro h2
    cases h2 with
    | root => exact ⟨rfl, rfl⟩
    | step m2 _ y _ hzy hne _ =>
      rw [hz] at hzy
      exact absurd (Option.some_inj.mp hzy) hne
  | step n1 z y r hzy hne hrest ih =>
    intro h2
    cases h2 with
    | root _ hz =>
      rw [hz] at hzy
      exact absurd (Option.some_inj.mp hzy) hne
    | step m2 _ y2 _ hzy2 hne2 hrest2 =>
      rw [hzy] at hzy2
      cases Option.some_inj.mp hzy2
      obtain ⟨hn, hr⟩ := ih hrest2
      exact ⟨by omega, hr⟩

theorem reaches_det {p : List (String × String)} {x r1 r2 : String}
    (h1 : Reaches p x r1) (h2 : Reaches p x r2) : r1 = r2 := by
  obtain ⟨n, h1⟩ := h1
  obtain ⟨m, h2⟩ := h2
  exact (reachesN_det h1 h2).2

theorem reachesN_mem {p : List (String × String)} {n : Nat} {x r : String}
    (h : ReachesN p n x r) : x ∈ keysList p := by
  cases h with
  | root _ hx => exact mem_keysList_of_alookup p x x hx
  | step n2 _ y _ hxy _ _ => exact mem_keysList_of_alookup p x y hxy

theorem reaches_mem {p : List (String × String)} {x r : String}
    (h : Reaches p x r) : x ∈ keysList p := by
  obtain ⟨n, h⟩ := h
  exact reachesN_mem h

theorem reachesN_root_lookup {p : List (String × String)} {n : Nat} {x r : String}
    (h : ReachesN p n x r) : alookup p r = some r := by
  induction h with
  | root z hz => exact hz
  | step n2 z y r2 hzy hne hrest ih => exact ih

theorem reaches_root_lookup {p : List (String × String)} {x r : String}
    (h : Reaches p x r) : alookup p r = some r := by
  obtain ⟨n, h⟩ := h
  exact reachesN_root_lookup h

theorem reaches_root_self {p : List (String × String)} {x r : String}
    (h : Reaches p x r) : Reaches p r r :=
  ⟨0, ReachesN.root r (reaches_root_lookup h)⟩

theorem reaches_closure {p : List (String × String)}
    (hwf : ∀ z ∈ keysList p, ∃ r, Reaches p z r) {a b : String}
    (hab : alookup p a = some b) : b ∈ keysList p := by
  obtain ⟨r, n, hr⟩ := hwf a (mem_keysList_of_alookup p a b hab)
  cases hr with
  | root _ hz =>
    rw [hz] at hab
    cases Option.some_inj.mp hab
    exact mem_keysList_of_alookup p a a hz
  | step n2 _ y _ hay hne hrest =>
    rw [hay] at hab
    cases Option.some_inj.mp hab
    exact reachesN_mem hrest

/-! ## Pointer surgery preserves or redirects roots -/

theorem reaches_compress_fwd {p : List (String × String)} {x r : String}
    (hx : Reaches p x r) :
    ∀ {n z r2}, ReachesN (dictSet p x r) n z r2 → Reaches p z r2 := by
  intro n z r2 hder
  induction hder with
  | root z2 hz2 =>
    by_cases hzx : z2 = x
    · subst hzx
      rw [alookup_dictSet_self] at hz2
      have hrz : r = z2 := Option.some_inj.mp hz2
      rw [hrz] at hx
      exact hx
    · rw [alookup_dictSet_ne p x z2 r hzx] at hz2
      exact ⟨0, ReachesN.root z2 hz2⟩
  | step n2 z2 y2 r3 hz2 hne hrest ih =>
    by_cases hzx : z2 = x
    · subst hzx
      rw [alookup_dictSet_self] at hz2
      have hyr : y2 = r := (Option.some_inj.mp hz2).symm
      subst hyr
      have hr3 : r3 = y2 := reaches_det ih (reaches_root_self hx)
      subst hr3
      exact hx
    · rw [alookup_dictSet_ne p x z2 r hzx] at hz2
      obtain ⟨m, hm⟩ := ih
      exact ⟨m + 1, ReachesN.step m z2 y2 r3 hz2 hne hm⟩

theorem reaches_compress_bwd {p : List (String × String)} {x r : String}
    (hx : Reaches p x r) :
    ∀ {n z r2}, ReachesN p n z r2 → Reaches (dictSet p x r) z r2 := by
  intro n z r2 hder
  induction hder with
  | root z2 hz2 =>
    by_cases hzx : z2 = x
    · subst hzx
      have hrz : r = z2 := reaches_det hx ⟨0, ReachesN.root z2 hz2⟩
      subst hrz
      exact ⟨0, ReachesN.root r (alookup_dictSet_self p r r)⟩
    · exact ⟨0, ReachesN.root z2 (by rw [alookup_dictSet_ne p x z2 r hzx]; exact hz2)⟩
  | step n2 z2 y2 r3 hz2 hne hrest ih =>
    by_cases hzx : z2 = x
    · subst hzx
      have hr3 : r3 = r :=
        reaches_det ⟨n2 + 1, ReachesN.step n2 z2 y2 r3 hz2 hne hrest⟩ hx
      subst hr3
      by_cases hrx : r3 = z2
      · rw [hrx]
        exact ⟨0, ReachesN.root z2 (alookup_dictSet_self p z2 z2)⟩
      · refine ⟨1, ReachesN.step 0 z2 r3 r3 (alookup_dictSet_self p z2 r3)
          (Ne.symm hrx) (ReachesN.root r3 ?_)⟩
        rw [alookup_dictSet_ne p z2 r3 r3 hrx]
        exact reaches_root_lookup hx
    · obtain ⟨m, hm⟩ := ih
      refine ⟨m + 1, ReachesN.step m z2 y2 r3 ?_ hne hm⟩
      rw [alookup_dictSet_ne p x z2 r hzx]
      exact hz2

/-- Path compression step: pointing `x` directly at its root `r` changes
no node's root. -/
theorem reaches_compress {p : List (String × String)} {x r : String}
    (hx : Reaches p x r) (z r2 : String) :
    Reaches (dictSet p x r) z r2 ↔ Reaches p z r2 := by
  constructor
  · rintro ⟨n, hder⟩
    exact reaches_compress_fwd hx hder
  · rintro ⟨n, hder⟩
    exact reaches_compress_bwd hx hder

theorem reaches_attach_fwd {p : List (String × String)} {w l : String}
    (hw : alookup p w = some w) (hl : alookup p l = some l) (hlw : l ≠ w) :
    ∀ {n z r2}, ReachesN (dictSet p l w) n z r2 →
      ∃ r0, Reaches p z r0 ∧ r2 = (if r0 = l then w else r0) := by
  intro n z r2 hder
  induction hder with
  | root z2 hz2 =>
    by_cases hzl : z2 = l
    · subst hzl
      rw [alookup_dictSet_self] at hz2
      exact absurd (Option.some_inj.mp hz2) (Ne.symm hlw)
    · rw [alookup_dictSet_ne p l z2 w hzl] at hz2
      exact ⟨z2, ⟨0, ReachesN.root z2 hz2⟩, by rw [if_neg hzl]⟩
  | step n2 z2 y2 r3 hz2 hne hrest ih =>
    by_cases hzl : z2 = l
    · subst hzl
      rw [alookup_dictSet_self] at hz2
      have hy2 : y2 = w := (Option.some_inj.mp hz2).symm
      subst hy2
      have hwroot : Reaches (dictSet p z2 y2) y2 y2 := by
        refine ⟨0, ReachesN.root y2 ?_⟩
        rw [alookup_dictSet_ne p z2 y2 y2 (Ne.symm hlw)]
        exact hw
      have hr3 : r3 = y2 := reaches_det ⟨n2, hrest⟩ hwroot
      subst hr3
      exact ⟨z2, ⟨0, ReachesN.root z2 hl⟩, by rw [if_pos rfl]⟩
    · rw [alookup_dictSet_ne p l z2 w hzl] at hz2
      obtain ⟨r0, hr0, hre⟩ := ih
      obtain ⟨m, hm⟩ := hr0
      exact ⟨r0, ⟨m + 1, ReachesN.step m z2 y2 r0 hz2 hne hm⟩, hre⟩

theorem reaches_attach_bwd {p : List (String × String)} {w l : String}
    (hw : alookup p w = some w) (hl : alookup p l = some l) (hlw : l ≠ w) :
    ∀ {n z r0}, ReachesN p n z r0 →
      Reaches (dictSet p l w) z (if r0 = l then w else r0) := by
  intro n z r0 hder
  induction hder with
  | root z2 hz2 =>
    by_cases hzl : z2 = l
    · subst hzl
      rw [if_pos rfl]
      refine ⟨1, ReachesN.step 0 z2 w w (alookup_dictSet_self p z2 w) hlw
        (ReachesN.root w ?_)⟩
      rw [alookup_dictSet_ne p z2 w w (Ne.symm hlw)]
      exact hw
    · rw [if_neg hzl]
      exact ⟨0, ReachesN.root z2 (by rw [alookup_dictSet_ne p l z2 w hzl]; exact hz2)⟩
  | step n2 z2 y2 r3 hz2 hne hrest ih =>
    have hz2l : z2 ≠ l := by
      intro hh
      rw [hh, hl] at hz2
      exact hne (hh.trans (Option.some_inj.mp hz2))
    obtain ⟨m, hm⟩ := ih
    refine ⟨m + 1, ReachesN.step m z2 y2 _ ?_ hne hm⟩
    rw [alookup_dictSet_ne p l z2 w hz2l]
    exact hz2

/-- Union step: pointing root `l` at root `w` redirects exactly the nodes
rooted at `l` to `w` and leaves all other roots unchanged. -/
theorem reaches_attach {p : List (String × String)} {w l : String}
    (hw : alookup p w = some w) (hl : alookup p l = some l) (hlw : l ≠ w)
    (z r2 : String) :
    Reaches (dictSet p l w) z r2 ↔
      ∃ r0, Reaches p z r0 ∧ r2 = (if r0 = l then w else r0) := by
  constructor
  · rintro ⟨n, hder⟩
    exact reaches_attach_fwd hw hl hlw hder
  · rintro ⟨r0, ⟨n, hder⟩, hre⟩
    rw [hre]
    exact reaches_attach_bwd hw hl hlw hder

/-- Registering a fresh singleton: all old roots are unchanged, and the new
node is its own root. -/
theorem reaches_fresh {p : List (String × String)} {x : String}
    (hx : x ∉ keysList p)
    (hcl : ∀ a b, alookup p a = some b → b ∈ keysList p) (z r2 : String) :
    Reaches (p ++ [(x, x)]) z r2 ↔ (Reaches p z r2 ∨ (z = x ∧ r2 = x)) := by
  have hlook_x : alookup (p ++ [(x, x)]) x = some x := by
    rw [alookup_append_right p [(x, x)] x hx]
    simp [alookup]
  have hlook_old : ∀ z2, z2 ≠ x → ∀ v, alookup (p ++ [(x, x)]) z2 = some v →
      alookup p z2 = some v := by
    intro z2 hz2x v hv
    by_cases hmem : z2 ∈ keysList p
    · rwa [alookup_append_left p [(x, x)] z2 hmem] at hv
    · rw [alookup_append_right p [(x, x)] z2 hmem] at hv
      simp [alookup, Ne.symm hz2x] at hv
  constructor
  · rintro ⟨n, hder⟩
    induction hder with
    | root z2 hz2 =>
      by_cases hzx : z2 = x
      · exact Or.inr ⟨hzx, hzx⟩
      · exact Or.inl ⟨0, ReachesN.root z2 (hlook_old z2 hzx z2 hz2)⟩
    | step n2 z2 y2 r3 hz2 hne hrest ih =>
      by_cases hzx : z2 = x
      · subst hzx
        rw [hlook_x] at hz2
        exact absurd (Option.some_inj.mp hz2) hne
      · have hz2p : alookup p z2 = some y2 := hlook_old z2 hzx y2 hz2
        rcases ih with hy | ⟨hy2x, hr2x⟩
        · obtain ⟨m, hm⟩ := hy
          exact Or.inl ⟨m + 1, ReachesN.step m z2 y2 r3 hz2p hne hm⟩
        · subst hy2x
          exact absurd (hcl z2 y2 hz2p) hx
  · rintro (⟨n, hder⟩ | ⟨hz, hr⟩)
    · induction hder with
      | root z2 hz2 =>
        refine ⟨0, ReachesN.root z2 ?_⟩
        rw [alookup_append_left p [(x, x)] z2 (mem_keysList_of_alookup p z2 z2 hz2)]
        exact hz2
      | step n2 z2 y2 r3 hz2 hne hrest ih =>
        obtain ⟨m, hm⟩ := ih
        refine ⟨m + 1, ReachesN.step m z2 y2 r3 ?_ hne hm⟩
        rw [alookup_append_left p [(x, x)] z2 (mem_keysList_of_alookup p z2 y2 hz2)]
        exact hz2
    · rw [hz, hr]
      exact ⟨0, ReachesN.root x hlook_x⟩

/-! ## Fuel adequacy: parent chains visit distinct keys -/

theorem reachesN_chain_list {p : List (String × String)} :
    ∀ {n x r}, ReachesN p n x r →
      ∃ lst : List String, lst.length = n + 1 ∧ lst.Nodup ∧
        ∀ z ∈ lst, ∃ k, k ≤ n ∧ ReachesN p k z r := by
  intro n x r hder
  induction hder with
  | root z2 hz2 =>
    refine ⟨[z2], rfl, List.nodup_singleton z2, ?_⟩
    intro z hzmem
    rw [List.mem_singleton] at hzmem
    rw [hzmem]
    exact ⟨0, Nat.le_refl 0, ReachesN.root z2 hz2⟩
  | step n2 z2 y2 r3 hz2 hne hrest ih =>
    obtain ⟨lst, hlen, hnd, hmem⟩ := ih
    refine ⟨z2 :: lst, by simp [hlen], ?_, ?_⟩
    · rw [List.nodup_cons]
      refine ⟨?_, hnd⟩
      intro hz2mem
      obtain ⟨k, hk, hkreach⟩ := hmem z2 hz2mem
      obtain ⟨hkeq, -⟩ := reachesN_det hkreach (ReachesN.step n2 z2 y2 r3 hz2 hne hrest)
      omega
    · intro z hzmem
      rcases List.mem_cons.mp hzmem with hz | hz
      · rw [hz]
        exact ⟨n2 + 1, Nat.le_refl _, ReachesN.step n2 z2 y2 r3 hz2 hne hrest⟩
      · obtain ⟨k, hk, hkreach⟩ := hmem z hz
        exact ⟨k, by omega, hkreach⟩

theorem reachesN_lt_length {p : List (String × String)}
    (hnd : (keysList p).Nodup) {n : Nat} {x r : String}
    (hder : ReachesN p n x r) : n < (keysList p).length := by
  obtain ⟨lst, hlen, hndl, hmem⟩ := reachesN_chain_list hder
  have hcard : lst.length ≤ (keysList p).length := by
    calc lst.length = lst.toFinset.card := (List.toFinset_card_of_nodup hndl).symm
    _ ≤ (keysList p).toFinset.card := by
        apply Finset.card_le_card
        intro z hz
        rw [List.mem_toFinset] at hz ⊢
        obtain ⟨k, hk, hkreach⟩ := hmem z hz
        exact reachesN_mem hkreach
    _ = (keysList p).length := List.toFinset_card_of_nodup hnd
  omega

/-! ## Specification of `find` -/

theorem findAux_spec {p : List (String × String)} (rk : List (String × Nat)) :
    ∀ {n x r}, ReachesN p n x r → ∀ fuel, n < fuel →
      ∃ p2, UnionFind.findAux fuel ⟨p, rk⟩ x = (⟨p2, rk⟩, r) ∧
        keysList p2 = keysList p ∧
        ∀ z r2, Reaches p2 z r2 ↔ Reaches p z r2 := by
  intro n x r hder
  induction hder with
  | root z2 hz2 =>
    intro fuel hfuel
    match fuel, hfuel with
    | fuel + 1, _ =>
      refine ⟨p, ?_, rfl, fun z r2 => Iff.rfl⟩
      simp [UnionFind.findAux, hz2]
  | step n2 z2 y2 r3 hz2 hne hrest ih =>
    intro fuel hfuel
    match fuel, hfuel with
    | fuel + 1, hfuel =>
      have hn2 : n2 < fuel := by omega
      obtain ⟨p2, heq, hkeys, hiff⟩ := ih fuel hn2
      have hz2mem : z2 ∈ keysList p := mem_keysList_of_alookup p z2 y2 hz2
      have hxr2 : Reaches p2 z2 r3 := (hiff z2 r3).mpr
        ⟨n2 + 1, ReachesN.step n2 z2 y2 r3 hz2 hne hrest⟩
      refine ⟨dictSet p2 z2 r3, ?_, ?_, ?_⟩
      · simp [UnionFind.findAux, hz2, Ne.symm hne, heq]
      · rw [keysList_dictSet_mem p2 z2 r3 (by rw [hkeys]; exact hz2mem)]
        exact hkeys
      · intro z r2
        rw [reaches_compress hxr2 z r2]
        exact hiff z r2

/-- Well-formedness of the forest: keys are unique, the rank table has
exactly the parent table's keys, and every key reaches a root. -/
def UFwf (s : UnionFind) : Prop :=
  (keysList s.parent).Nodup ∧ keysList s.rank = keysList s.parent ∧
  ∀ z ∈ keysList s.parent, ∃ r, Reaches s.parent z r

theorem find_registered {s : UnionFind} {x : String}
    (hwf : UFwf s) (hx : x ∈ keysList s.parent) :
    ∃ p2 r, s.find x = (⟨p2, s.rank⟩, r) ∧ Reaches s.parent x r ∧
      keysList p2 = keysList s.parent ∧
      ∀ z r2, Reaches p2 z r2 ↔ Reaches s.parent z r2 := by
  obtain ⟨hnd, hrk, hroots⟩ := hwf
  obtain ⟨r, n, hder⟩ := hroots x hx
  have hlen : (keysList s.parent).length = s.parent.length := by
    simp [keysList]
  have hfuel : n < s.parent.length + 1 := by
    have := reachesN_lt_length hnd hder
    omega
  obtain ⟨p2, heq, hkeys, hiff⟩ := findAux_spec s.rank hder (s.parent.length + 1) hfuel
  exact ⟨p2, r, heq, ⟨n, hder⟩, hkeys, hiff⟩

theorem find_fresh (s : UnionFind) (x : String) (hx : x ∉ keysList s.parent) :
    s.find x = (⟨s.parent ++ [(x, x)], dictSet s.rank x 0⟩, x) := by
  have hnone : alookup s.parent x = none := (alookup_none_iff _ _).mpr hx
  show UnionFind.findAux (s.parent.length + 1) s x = _
  simp [UnionFind.findAux, hnone, dictSet_notmem s.parent x x hx,
    alookup_append_right s.parent [(x, x)] x hx, alookup]

/-! ## The equivalence induced by the forest -/

def sameRoot (p : List (String × String)) (a b : String) : Prop :=
  ∃ r, Reaches p a r ∧ Reaches p b r

theorem sameRoot_refl {p : List (String × String)} {a r : String}
    (h : Reaches p a r) : sameRoot p a a :=
  ⟨r, h, h⟩

theorem sameRoot_symm {p : List (String × String)} {a b : String}
    (h : sameRoot p a b) : sameRoot p b a := by
  obtain ⟨r, h1, h2⟩ := h
  exact ⟨r, h2, h1⟩

theorem sameRoot_trans {p : List (String × String)} {a b c : String}
    (h1 : sameRoot p a b) (h2 : sameRoot p b c) : sameRoot p a c := by
  obtain ⟨r, ha, hb⟩ := h1
  obtain ⟨r2, hb2, hc⟩ := h2
  rw [reaches_det hb hb2] at ha
  exact ⟨r2, ha, hc⟩

/-! ## Specification of `union` -/

theorem wf_of_find {s : UnionFind} {p2 : List (String × String)}
    (hwf : UFwf s) (hkeys : keysList p2 = keysList s.parent)
    (hiff : ∀ z r2, Reaches p2 z r2 ↔ Reaches s.parent z r2) :
    UFwf ⟨p2, s.rank⟩ := by
  obtain ⟨hnd, hrk, hroots⟩ := hwf
  refine ⟨?_, ?_, ?_⟩
  · show (keysList p2).Nodup
    rw [hkeys]
    exact hnd
  · show keysList s.rank = keysList p2
    rw [hkeys]
    exact hrk
  · intro z hz
    rw [show (⟨p2, s.rank⟩ : UnionFind).parent = p2 from rfl] at hz ⊢
    rw [hkeys] at hz
    obtain ⟨r, hr⟩ := hroots z hz
    exact ⟨r, (hiff z r).mpr hr⟩

theorem union_spec {s : UnionFind} {x y : String} (hwf : UFwf s)
    (hx : x ∈ keysList s.parent) (hy : y ∈ keysList s.parent) :
    ∃ rx ry,
      Reaches s.parent x rx ∧ Reaches s.parent y ry ∧
      keysList (s.union x y).parent = keysList s.parent ∧ UFwf (s.union x y) ∧
      ((rx = ry ∧ (s.union x y).rank = s.rank ∧
          (∀ z r2, Reaches (s.union x y).parent z r2 ↔ Reaches s.parent z r2)) ∨
       (rx ≠ ry ∧ ∃ w l, ((w = rx ∧ l = ry) ∨ (w = ry ∧ l = rx)) ∧
          (alookup s.rank l).getD 0 ≤ (alookup s.rank w).getD 0 ∧
          alookup (s.union x y).parent l = some w ∧
          ((s.union x y).rank =
            if (alookup s.rank w).getD 0 = (alookup s.rank l).getD 0
            then dictSet s.rank w ((alookup s.rank w).getD 0 + 1) else s.rank) ∧
          (∀ z r2, Reaches (s.union x y).parent z r2 ↔
            ∃ r0, Reaches s.parent z r0 ∧ r2 = (if r0 = l then w else r0)))) := by
  obtain ⟨p1, rx, heq1, hreach_x, hkeys1, hiff1⟩ := find_registered hwf hx
  have hwf1 : UFwf ⟨p1, s.rank⟩ := wf_of_find hwf hkeys1 hiff1
  have hy1 : y ∈ keysList p1 := by
    rw [show keysList p1 = keysList s.parent from hkeys1]
    exact hy
  obtain ⟨p2, ry, heq2, hreach_y1, hkeys2, hiff2⟩ := find_registered hwf1 hy1
  have hreach_y : Reaches s.parent y ry := (hiff1 y ry).mp hreach_y1
  have hiff12 : ∀ z r2, Reaches p2 z r2 ↔ Reaches s.parent z r2 := by
    intro z r2
    rw [hiff2 z r2]
    exact hiff1 z r2
  have hkeys12 : keysList p2 = keysList s.parent := by
    rw [hkeys2]
    exact hkeys1
  have hwf2 : UFwf ⟨p2, s.rank⟩ := wf_of_find hwf hkeys12 hiff12
  have hun : s.union x y =
      (if rx = ry then (⟨p2, s.rank⟩ : UnionFind)
       else
        let rkx := (alookup s.rank rx).getD 0
        let rky := (alookup s.rank ry).getD 0
        let w := if rkx < rky then ry else rx
        let l := if rkx < rky then rx else ry
        let s3 : UnionFind := ⟨dictSet p2 l w, s.rank⟩
        let rpx := (alookup s3.rank w).getD 0
        let rpy := (alookup s3.rank l).getD 0
        if rpx = rpy then ⟨s3.parent, dictSet s3.rank w (rpx + 1)⟩ else s3) := by
    simp only [UnionFind.union, heq1, heq2]
  have hrootx2 : alookup p2 rx = some rx := by
    refine reaches_root_lookup ((hiff12 x rx).mpr hreach_x)
  have hrooty2 : alookup p2 ry = some ry := by
    refine reaches_root_lookup ((hiff12 y ry).mpr hreach_y)
  by_cases hre : rx = ry
  · have hu : s.union x y = ⟨p2, s.rank⟩ := by rw [hun, if_pos hre]
    rw [hu]
    exact ⟨rx, ry, hreach_x, hreach_y, hkeys12, hwf2, Or.inl ⟨hre, rfl, hiff12⟩⟩
  · have hlookw : ∀ c : String, (c = rx ∨ c = ry) → alookup p2 c = some c := by
      intro c hc
      rcases hc with hc | hc
      · rw [hc]; exact hrootx2
      · rw [hc]; exact hrooty2
    set rkx := (alookup s.rank rx).getD 0 with hrkx
    set rky := (alookup s.rank ry).getD 0 with hrky
    set w := if rkx < rky then ry else rx with hw
    set l := if rkx < rky then rx else ry with hl
    have hwmem : w = rx ∨ w = ry := by
      rw [hw]; by_cases hc : rkx < rky
      · rw [if_pos hc]; exact Or.inr rfl
      · rw [if_neg hc]; exact Or.inl rfl
    have hlmem : l = rx ∨ l = ry := by
      rw [hl]; by_cases hc : rkx < rky
      · rw [if_pos hc]; exact Or.inl rfl
      · rw [if_neg hc]; exact Or.inr rfl
    have hwl_pair : (w = rx ∧ l = ry) ∨ (w = ry ∧ l = rx) := by
      rw [hw, hl]; by_cases hc : rkx < rky
      · rw [if_pos hc, if_pos hc]; exact Or.inr ⟨rfl, rfl⟩
      · rw [if_neg hc, if_neg hc]; exact Or.inl ⟨rfl, rfl⟩
    have hlw : l ≠ w := by
      rcases hwl_pair with ⟨hw2, hl2⟩ | ⟨hw2, hl2⟩
      · rw [hw2, hl2]; exact Ne.symm hre
      · rw [hw2, hl2]; exact hre
    have hrank_le : (alookup s.rank l).getD 0 ≤ (alookup s.rank w).getD 0 := by
      rw [hw, hl]
      by_cases hc : rkx < rky
      · rw [if_pos hc, if_pos hc, ← hrkx, ← hrky]
        omega
      · rw [if_neg hc, if_neg hc, ← hrkx, ← hrky]
        omega
    have hlookw2 : alookup p2 w = some w := hlookw w hwmem
    have hlookl2 : alookup p2 l = some l := hlookw l hlmem
    have hattach := reaches_attach hlookw2 hlookl2 hlw
    have hattach2 : ∀ z r2, Reaches (dictSet p2 l w) z r2 ↔
        ∃ r0, Reaches s.parent z r0 ∧ r2 = (if r0 = l then w else r0) := by
      intro z r2
      rw [hattach z r2]
      constructor
      · rintro ⟨r0, hr0, hre2⟩
        exact ⟨r0, (hiff12 z r0).mp hr0, hre2⟩
      · rintro ⟨r0, hr0, hre2⟩
        exact ⟨r0, (hiff12 z r0).mpr hr0, hre2⟩
    have hkeys3 : keysList (dictSet p2 l w) = keysList s.parent := by
      rw [keysList_dictSet_mem p2 l w (mem_keysList_of_alookup p2 l l hlookl2)]
      exact hkeys12
    have hwmemrank : w ∈ keysList s.rank := by
      rw [hwf.2.1, ← hkeys12]
      exact mem_keysList_of_alookup p2 w w hlookw2
    have hu : s.union x y =
        (if (alookup s.rank w).getD 0 = (alookup s.rank l).getD 0
         then (⟨dictSet p2 l w, dictSet s.rank w ((alookup s.rank w).getD 0 + 1)⟩ : UnionFind)
         else ⟨dictSet p2 l w, s.rank⟩) := by
      rw [hun, if_neg hre]
    have hwf3 : ∀ rk2 : List (String × Nat), keysList rk2 = keysList s.rank →
        UFwf ⟨dictSet p2 l w, rk2⟩ := by
      intro rk2 hrk2
      refine ⟨?_, ?_, ?_⟩
      · show (keysList (dictSet p2 l w)).Nodup
        rw [hkeys3]
        exact hwf.1
      · show keysList rk2 = keysList (dictSet p2 l w)
        rw [hkeys3, hrk2, hwf.2.1]
      · intro z hz
        rw [show (⟨dictSet p2 l w, rk2⟩ : UnionFind).parent = dictSet p2 l w from rfl]
          at hz ⊢
        rw [hkeys3] at hz
        obtain ⟨r0, hr0⟩ := hwf.2.2 z hz
        exact ⟨if r0 = l then w else r0, (hattach2 z _).mpr ⟨r0, hr0, rfl⟩⟩
    by_cases hrkeq : (alookup s.rank w).getD 0 = (alookup s.rank l).getD 0
    · have hu2 : s.union x y =
          ⟨dictSet p2 l w, dictSet s.rank w ((alookup s.rank w).getD 0 + 1)⟩ := by
        rw [hu, if_pos hrkeq]
      rw [hu2]
      refine ⟨rx, ry, hreach_x, hreach_y, hkeys3, ?_, ?_⟩
      · exact hwf3 _ (keysList_dictSet_mem s.rank w _ hwmemrank)
      · refine Or.inr ⟨hre, w, l, hwl_pair, hrank_le, alookup_dictSet_self p2 l w, ?_, hattach2⟩
        rw [if_pos hrkeq]
    · have hu2 : s.union x y = ⟨dictSet p2 l w, s.rank⟩ := by
        rw [hu, if_neg hrkeq]
      rw [hu2]
      refine ⟨rx, ry, hreach_x, hreach_y, hkeys3, ?_, ?_⟩
      · exact hwf3 _ rfl
      · refine Or.inr ⟨hre, w, l, hwl_pair, hrank_le, alookup_dictSet_self p2 l w, ?_, hattach2⟩
        rw [if_neg hrkeq]

/-! ## Accepted edges and single-linkage connectivity -/

/-- The edge a line contributes to the forest: its parsed endpoints, when
they are distinct and the distance is at or below the threshold. -/
def acceptedEdge (t : ℚ) (raw : String) : Option (String × String) :=
  match parsedLine raw with
  | none => none
  | some (g1, g2, d) => if g1 ≠ g2 ∧ leFloat d t then some (g1, g2) else none

/-- One merging step between two genomes licensed by some input line. -/
def edgeRel (t : ℚ) (lines : List String) (a b : String) : Prop :=
  ∃ raw ∈ lines, acceptedEdge t raw = some (a, b) ∨ acceptedEdge t raw = some (b, a)

/-- A chain of below-threshold edges: the single-linkage relation. -/
def connected (t : ℚ) (lines : List String) : String → String → Prop :=
  Relation.ReflTransGen (edgeRel t lines)

/-- The genome `g` is an endpoint of the parsed edge of `raw`. -/
def touches (raw g : String) : Prop :=
  ∃ g1 g2 d, parsedLine raw = some (g1, g2, d) ∧ (g = g1 ∨ g = g2)

/-- The genome `g` is discovered by some line of the stream. -/
def registered (lines : List String) (g : String) : Prop :=
  ∃ raw ∈ lines, touches raw g

theorem edgeRel_symm {t : ℚ} {lines : List String} {a b : String}
    (h : edgeRel t lines a b) : edgeRel t lines b a := by
  obtain ⟨raw, hraw, hacc⟩ := h
  exact ⟨raw, hraw, hacc.symm⟩

theorem connected_symm {t : ℚ} {lines : List String} {a b : String}
    (h : connected t lines a b) : connected t lines b a := by
  induction h with
  | refl => exact Relation.ReflTransGen.refl
  | tail hab hbc ih =>
    exact Relation.ReflTransGen.head (edgeRel_symm hbc) ih

theorem connected_congr {t1 t2 : ℚ} {l1 l2 : List String}
    (h : ∀ a b, edgeRel t1 l1 a b ↔ edgeRel t2 l2 a b) (a b : String) :
    connected t1 l1 a b ↔ connected t2 l2 a b := by
  constructor
  · intro hc
    exact Relation.ReflTransGen.mono (fun c e hc2 => (h c e).mp hc2) hc
  · intro hc
    exact Relation.ReflTransGen.mono (fun c e hc2 => (h c e).mpr hc2) hc

theorem connected_mono {t1 t2 : ℚ} {l1 l2 : List String}
    (h : ∀ a b, edgeRel t1 l1 a b → edgeRel t2 l2 a b) (a b : String)
    (hc : connected t1 l1 a b) : connected t2 l2 a b :=
  Relation.ReflTransGen.mono h hc

theorem edgeRel_registered {t : ℚ} {lines : List String} {a b : String}
    (h : edgeRel t lines a b) : registered lines a := by
  obtain ⟨raw, hraw, hacc⟩ := h
  refine ⟨raw, hraw, ?_⟩
  rcases hacc with hacc | hacc <;>
  · cases hp : parsedLine raw with
    | none => simp [acceptedEdge, hp] at hacc
    | some trip =>
      obtain ⟨g1, g2, d⟩ := trip
      simp only [acceptedEdge, hp] at hacc
      by_cases hcond : g1 ≠ g2 ∧ leFloat d t = true
      · rw [if_pos hcond] at hacc
        have hpair := Option.some_inj.mp hacc
        rw [Prod.ext_iff] at hpair
        obtain ⟨h1, h2⟩ := hpair
        refine ⟨g1, g2, d, hp, ?_⟩
        first
        | exact Or.inl h1.symm
        | exact Or.inr h2.symm
      · rw [if_neg hcond] at hacc
        exact absurd hacc (by simp)

theorem connected_unregistered {t : ℚ} {lines : List String} {a b : String}
    (ha : ¬ registered lines a) (hc : connected t lines a b) : a = b := by
  rw [connected] at hc
  rcases Relation.ReflTransGen.cases_head hc with heq | ⟨c, hac, hcb⟩
  · exact heq
  · exact absurd (edgeRel_registered hac) ha

/-- Adding one symmetric edge `u ~ v` to a symmetric step relation extends
its reflexive-transitive closure in exactly the single-linkage way. -/
theorem rtg_add_edge {α : Type} (R : α → α → Prop) (u v : α) (a b : α) :
    Relation.ReflTransGen (fun c e => R c e ∨ (c = u ∧ e = v) ∨ (c = v ∧ e = u)) a b ↔
      (Relation.ReflTransGen R a b ∨
       (Relation.ReflTransGen R a u ∧ Relation.ReflTransGen R v b) ∨
       (Relation.ReflTransGen R a v ∧ Relation.ReflTransGen R u b)) := by
  constructor
  · intro h
    induction h with
    | refl => exact Or.inl Relation.ReflTransGen.refl
    | tail hac hce ih =>
      rename_i c e
      rcases hce with hce | ⟨hcu, hev⟩ | ⟨hcv, heu⟩
      · rcases ih with ih | ⟨ih1, ih2⟩ | ⟨ih1, ih2⟩
        · exact Or.inl (Relation.ReflTransGen.tail ih hce)
        · exact Or.inr (Or.inl ⟨ih1, Relation.ReflTransGen.tail ih2 hce⟩)
        · exact Or.inr (Or.inr ⟨ih1, Relation.ReflTransGen.tail ih2 hce⟩)
      · subst hcu
        subst hev
        rcases ih with ih | ⟨ih1, ih2⟩ | ⟨ih1, ih2⟩
        · exact Or.inr (Or.inl ⟨ih, Relation.ReflTransGen.refl⟩)
        · exact Or.inr (Or.inl ⟨ih1, Relation.ReflTransGen.refl⟩)
        · exact Or.inl ih1
      · subst hcv
        subst heu
        rcases ih with ih | ⟨ih1, ih2⟩ | ⟨ih1, ih2⟩
        · exact Or.inr (Or.inr ⟨ih, Relation.ReflTransGen.refl⟩)
        · exact Or.inl ih1
        · exact Or.inr (Or.inr ⟨ih1, Relation.ReflTransGen.refl⟩)
  · have hmono : ∀ c e, Relation.ReflTransGen R c e →
        Relation.ReflTransGen (fun c2 e2 => R c2 e2 ∨ (c2 = u ∧ e2 = v) ∨ (c2 = v ∧ e2 = u)) c e :=
      fun c e hce => Relation.ReflTransGen.mono (fun c2 e2 hR => Or.inl hR) hce
    have hedge_uv : Relation.ReflTransGen
        (fun c2 e2 => R c2 e2 ∨ (c2 = u ∧ e2 = v) ∨ (c2 = v ∧ e2 = u)) u v :=
      Relation.ReflTransGen.single (Or.inr (Or.inl ⟨rfl, rfl⟩))
    have hedge_vu : Relation.ReflTransGen
        (fun c2 e2 => R c2 e2 ∨ (c2 = u ∧ e2 = v) ∨ (c2 = v ∧ e2 = u)) v u :=
      Relation.ReflTransGen.single (Or.inr (Or.inr ⟨rfl, rfl⟩))
    rintro (h | ⟨h1, h2⟩ | ⟨h1, h2⟩)
    · exact hmono a b h
    · exact ((hmono a u h1).trans hedge_uv).trans (hmono v b h2)
    · exact ((hmono a v h1).trans hedge_vu).trans (hmono u b h2)

/-! ## Registration preserves the connectivity bridge -/

theorem sameRoot_congr {p q : List (String × String)}
    (h : ∀ z r2, Reaches p z r2 ↔ Reaches q z r2) (a b : String) :
    sameRoot p a b ↔ sameRoot q a b := by
  constructor
  · rintro ⟨r, h1, h2⟩
    exact ⟨r, (h a r).mp h1, (h b r).mp h2⟩
  · rintro ⟨r, h1, h2⟩
    exact ⟨r, (h a r).mpr h1, (h b r).mpr h2⟩

theorem register_bridge {t : ℚ} {L : List String} {s : UnionFind} (g : String)
    (hwf : UFwf s)
    (hfresh : ∀ z, z ∉ keysList s.parent → ¬ registered L z)
    (hbridge : ∀ a b, a ∈ keysList s.parent → b ∈ keysList s.parent →
      (sameRoot s.parent a b ↔ connected t L a b)) :
    UFwf (s.find g).1 ∧
    (∀ z, z ∈ keysList (s.find g).1.parent ↔ (z ∈ keysList s.parent ∨ z = g)) ∧
    (∀ a b, a ∈ keysList (s.find g).1.parent → b ∈ keysList (s.find g).1.parent →
      (sameRoot (s.find g).1.parent a b ↔ connected t L a b)) := by
  by_cases hg : g ∈ keysList s.parent
  · obtain ⟨p2, r, heq, hreach, hkeys, hiff⟩ := find_registered hwf hg
    have hs1 : (s.find g).1 = ⟨p2, s.rank⟩ := by rw [heq]
    rw [hs1]
    refine ⟨wf_of_find hwf hkeys hiff, ?_, ?_⟩
    · intro z
      show z ∈ keysList p2 ↔ _
      rw [hkeys]
      constructor
      · exact fun hz => Or.inl hz
      · rintro (hz | hz)
        · exact hz
        · rw [hz]
          exact hg
    · intro a b ha hb
      replace ha : a ∈ keysList s.parent := by rw [← hkeys]; exact ha
      replace hb : b ∈ keysList s.parent := by rw [← hkeys]; exact hb
      rw [sameRoot_congr hiff a b]
      exact hbridge a b ha hb
  · have heq := find_fresh s g hg
    have hs1 : (s.find g).1 = ⟨s.parent ++ [(g, g)], dictSet s.rank g 0⟩ := by rw [heq]
    rw [hs1]
    have hcl : ∀ a b, alookup s.parent a = some b → b ∈ keysList s.parent :=
      fun a b hab => reaches_closure hwf.2.2 hab
    have hfr := fun z r2 => reaches_fresh hg hcl z r2
    have hkeys : keysList (s.parent ++ [(g, g)]) = keysList s.parent ++ [g] := by
      rw [keysList_append]
      rfl
    have hmemiff : ∀ z, z ∈ keysList (s.parent ++ [(g, g)]) ↔
        (z ∈ keysList s.parent ∨ z = g) := by
      intro z
      rw [hkeys, List.mem_append, List.mem_singleton]
    have hrankg : g ∉ keysList s.rank := by
      rw [hwf.2.1]
      exact hg
    refine ⟨⟨?_, ?_, ?_⟩, hmemiff, ?_⟩
    · show (keysList (s.parent ++ [(g, g)])).Nodup
      rw [hkeys, List.nodup_append]
      refine ⟨hwf.1, List.nodup_singleton g, ?_⟩
      intro z hz hz2
      rw [List.mem_singleton] at hz2
      rw [hz2] at hz
      exact hg hz
    · show keysList (dictSet s.rank g 0) = keysList (s.parent ++ [(g, g)])
      rw [dictSet_notmem s.rank g 0 hrankg, keysList_append, keysList_append, hwf.2.1]
      rfl
    · intro z hz
      rw [show (⟨s.parent ++ [(g, g)], dictSet s.rank g 0⟩ : UnionFind).parent =
        s.parent ++ [(g, g)] from rfl] at hz ⊢
      rcases (hmemiff z).mp hz with hzold | hzg
      · obtain ⟨r2, hr2⟩ := hwf.2.2 z hzold
        exact ⟨r2, (hfr z r2).mpr (Or.inl hr2)⟩
      · exact ⟨g, (hfr z g).mpr (Or.inr ⟨hzg, rfl⟩)⟩
    · intro a b ha hb
      replace ha := (hmemiff a).mp ha
      replace hb := (hmemiff b).mp hb
      have hnotreach : ∀ c r2, c ∉ keysList s.parent → ¬ Reaches s.parent c r2 := by
        intro c r2 hc hr
        exact hc (reaches_mem hr)
      have hrootg : ∀ c, c ∈ keysList s.parent → ¬ Reaches s.parent c g := by
        intro c hc hr
        exact hg (mem_keysList_of_alookup s.parent g g (reaches_root_lookup hr))
      rcases ha with ha | ha
      · rcases hb with hb | hb
        · have haneg : a ≠ g := fun hh => hg (hh ▸ ha)
          have hbneg : b ≠ g := fun hh => hg (hh ▸ hb)
          have : sameRoot (s.parent ++ [(g, g)]) a b ↔ sameRoot s.parent a b := by
            constructor
            · rintro ⟨r2, h1, h2⟩
              rcases (hfr a r2).mp h1 with h1 | ⟨h1, -⟩
              · rcases (hfr b r2).mp h2 with h2 | ⟨h2, -⟩
                · exact ⟨r2, h1, h2⟩
                · exact absurd h2 hbneg
              · exact absurd h1 haneg
            · rintro ⟨r2, h1, h2⟩
              exact ⟨r2, (hfr a r2).mpr (Or.inl h1), (hfr b r2).mpr (Or.inl h2)⟩
          rw [this]
          exact hbridge a b ha hb
        · rw [hb]
          constructor
          · rintro ⟨r2, h1, h2⟩
            rcases (hfr g r2).mp h2 with h2 | ⟨-, h2⟩
            · exact absurd h2 (hnotreach g r2 hg)
            · rw [h2] at h1
              rcases (hfr a g).mp h1 with h1 | ⟨h1, -⟩
              · exact absurd h1 (hrootg a ha)
              · rw [h1] at ha
                exact absurd ha hg
          · intro hc
            have := connected_unregistered (hfresh g hg) (connected_symm hc)
            rw [← this] at ha
            exact absurd ha hg
      · rcases hb with hb | hb
        · rw [ha]
          constructor
          · rintro ⟨r2, h1, h2⟩
            rcases (hfr g r2).mp h1 with h1 | ⟨-, h1⟩
            · exact absurd h1 (hnotreach g r2 hg)
            · rw [h1] at h2
              rcases (hfr b g).mp h2 with h2 | ⟨h2, -⟩
              · exact absurd h2 (hrootg b hb)
              · rw [h2] at hb
                exact absurd hb hg
          · intro hc
            have := connected_unregistered (hfresh g hg) hc
            rw [← this] at hb
            exact absurd hb hg
        · rw [ha, hb]
          constructor
          · intro hsr
            exact Relation.ReflTransGen.refl
          · intro hc
            exact ⟨g, (hfr g g).mpr (Or.inr ⟨rfl, rfl⟩),
                   (hfr g g).mpr (Or.inr ⟨rfl, rfl⟩)⟩

/-! ## Union at the level of the induced partition -/

theorem redirect_eq_iff {ra rb l w : String} (hlw : l ≠ w) :
    ((if ra = l then w else ra) = (if rb = l then w else rb)) ↔
      (ra = rb ∨ (ra = l ∧ rb = w) ∨ (ra = w ∧ rb = l)) := by
  by_cases h1 : ra = l <;> by_cases h2 : rb = l <;>
    simp [h1, h2, hlw, Ne.symm hlw, eq_comm]

theorem union_sameRoot {s : UnionFind} {x y : String} (hwf : UFwf s)
    (hx : x ∈ keysList s.parent) (hy : y ∈ keysList s.parent) :
    keysList (s.union x y).parent = keysList s.parent ∧ UFwf (s.union x y) ∧
    ∀ a b, a ∈ keysList s.parent → b ∈ keysList s.parent →
      (sameRoot (s.union x y).parent a b ↔
        (sameRoot s.parent a b ∨
         (sameRoot s.parent a x ∧ sameRoot s.parent y b) ∨
         (sameRoot s.parent a y ∧ sameRoot s.parent x b))) := by
  obtain ⟨rx, ry, hrx, hry, hkeys, hwfu, hcase⟩ := union_spec hwf hx hy
  refine ⟨hkeys, hwfu, ?_⟩
  intro a b ha hb
  obtain ⟨ra, hra⟩ := hwf.2.2 a ha
  obtain ⟨rb, hrb⟩ := hwf.2.2 b hb
  have hsr : ∀ c e rc re, Reaches s.parent c rc → Reaches s.parent e re →
      (sameRoot s.parent c e ↔ rc = re) := by
    intro c e rc re hc he
    constructor
    · rintro ⟨r, h1, h2⟩
      rw [reaches_det hc h1, reaches_det he h2]
    · intro hh
      rw [hh] at hc
      exact ⟨re, hc, he⟩
  rcases hcase with ⟨hrxy, -, hiff⟩ | ⟨hrxy, w, l, hwl, -, -, -, hiff⟩
  · rw [sameRoot_congr hiff a b, hsr a b ra rb hra hrb, hsr a x ra rx hra hrx,
        hsr y b ry rb hry hrb, hsr a y ra ry hra hry, hsr x b rx rb hrx hrb]
    constructor
    · exact fun h => Or.inl h
    · rintro (h | ⟨h1, h2⟩ | ⟨h1, h2⟩)
      · exact h
      · rw [h1, ← h2, hrxy]
      · rw [h1, ← h2, ← hrxy]
  · have huni : ∀ c rc, Reaches s.parent c rc →
        ∀ r2, Reaches (s.union x y).parent c r2 ↔ r2 = (if rc = l then w else rc) := by
      intro c rc hc r2
      rw [hiff c r2]
      constructor
      · rintro ⟨r0, h0, hre⟩
        rw [← reaches_det hc h0] at hre
        exact hre
      · intro hre
        exact ⟨rc, hc, hre⟩
    have hsru : sameRoot (s.union x y).parent a b ↔
        (if ra = l then w else ra) = (if rb = l then w else rb) := by
      constructor
      · rintro ⟨r2, h1, h2⟩
        have e1 := (huni a ra hra r2).mp h1
        have e2 := (huni b rb hrb r2).mp h2
        rw [← e1, ← e2]
      · intro he
        exact ⟨if ra = l then w else ra, (huni a ra hra _).mpr rfl,
               (huni b rb hrb _).mpr he⟩
    have hlw : l ≠ w := by
      rcases hwl with ⟨h1, h2⟩ | ⟨h1, h2⟩
      · rw [h1, h2]
        exact fun hh => hrxy hh.symm
      · rw [h1, h2]
        exact hrxy
    rw [hsru, redirect_eq_iff hlw, hsr a b ra rb hra hrb, hsr a x ra rx hra hrx,
        hsr y b ry rb hry hrb, hsr a y ra ry hra hry, hsr x b rx rb hrx hrb]
    rcases hwl with ⟨h1, h2⟩ | ⟨h1, h2⟩ <;> rw [h1, h2]
    · constructor
      · rintro (h | ⟨ha2, hb2⟩ | ⟨ha2, hb2⟩)
        · exact Or.inl h
        · exact Or.inr (Or.inr ⟨ha2, hb2.symm⟩)
        · exact Or.inr (Or.inl ⟨ha2, hb2.symm⟩)
      · rintro (h | ⟨ha2, hb2⟩ | ⟨ha2, hb2⟩)
        · exact Or.inl h
        · exact Or.inr (Or.inr ⟨ha2, hb2.symm⟩)
        · exact Or.inr (Or.inl ⟨ha2, hb2.symm⟩)
    · constructor
      · rintro (h | ⟨ha2, hb2⟩ | ⟨ha2, hb2⟩)
        · exact Or.inl h
        · exact Or.inr (Or.inl ⟨ha2, hb2.symm⟩)
        · exact Or.inr (Or.inr ⟨ha2, hb2.symm⟩)
      · rintro (h | ⟨ha2, hb2⟩ | ⟨ha2, hb2⟩)
        · exact Or.inl h
        · exact Or.inr (Or.inl ⟨ha2, hb2.symm⟩)
        · exact Or.inr (Or.inr ⟨ha2, hb2.symm⟩)

/-! ## The driver invariant -/

theorem registered_snoc (lines : List String) (raw : String) (g : String) :
    registered (lines ++ [raw]) g ↔ (registered lines g ∨ touches raw g) := by
  constructor
  · rintro ⟨r, hr, ht⟩
    rcases List.mem_append.mp hr with hr | hr
    · exact Or.inl ⟨r, hr, ht⟩
    · rw [List.mem_singleton] at hr
      rw [hr] at ht
      exact Or.inr ht
  · rintro (⟨r, hr, ht⟩ | ht)
    · exact ⟨r, List.mem_append_left _ hr, ht⟩
    · exact ⟨raw, List.mem_append_right _ (List.mem_singleton.mpr rfl), ht⟩

theorem edgeRel_snoc_none {t : ℚ} {lines : List String} {raw : String}
    (hacc : acceptedEdge t raw = none) (a b : String) :
    edgeRel t (lines ++ [raw]) a b ↔ edgeRel t lines a b := by
  constructor
  · rintro ⟨r, hr, h⟩
    rcases List.mem_append.mp hr with hr | hr
    · exact ⟨r, hr, h⟩
    · rw [List.mem_singleton] at hr
      rw [hr, hacc] at h
      rcases h with h | h <;> exact absurd h (by simp)
  · rintro ⟨r, hr, h⟩
    exact ⟨r, List.mem_append_left _ hr, h⟩

theorem edgeRel_snoc_some {t : ℚ} {lines : List String} {raw : String} {g1 g2 : String}
    (hacc : acceptedEdge t raw = some (g1, g2)) (a b : String) :
    edgeRel t (lines ++ [raw]) a b ↔
      (edgeRel t lines a b ∨ (a = g1 ∧ b = g2) ∨ (a = g2 ∧ b = g1)) := by
  constructor
  · rintro ⟨r, hr, h⟩
    rcases List.mem_append.mp hr with hr | hr
    · exact Or.inl ⟨r, hr, h⟩
    · rw [List.mem_singleton] at hr
      rw [hr, hacc] at h
      rcases h with h | h
      · have hh := Option.some_inj.mp h
        rw [Prod.ext_iff] at hh
        exact Or.inr (Or.inl ⟨hh.1.symm, hh.2.symm⟩)
      · have hh := Option.some_inj.mp h
        rw [Prod.ext_iff] at hh
        exact Or.inr (Or.inr ⟨hh.2.symm, hh.1.symm⟩)
  · rintro (⟨r, hr, h⟩ | ⟨h1, h2⟩ | ⟨h1, h2⟩)
    · exact ⟨r, List.mem_append_left _ hr, h⟩
    · refine ⟨raw, List.mem_append_right _ (List.mem_singleton.mpr rfl), Or.inl ?_⟩
      rw [hacc, h1, h2]
    · refine ⟨raw, List.mem_append_right _ (List.mem_singleton.mpr rfl), Or.inr ?_⟩
      rw [hacc, h1, h2]

/-- The state invariant maintained by the driver: the forest is
well-formed, its keys are exactly the genomes discovered so far, and two
keys share a root exactly when they are chain-connected through
below-threshold edges seen so far. -/
def EngineInv (t : ℚ) (lines : List String) (s : EngineState) : Prop :=
  UFwf s.uf ∧
  (∀ g, g ∈ keysList s.uf.parent ↔ registered lines g) ∧
  (∀ a b, a ∈ keysList s.uf.parent → b ∈ keysList s.uf.parent →
    (sameRoot s.uf.parent a b ↔ connected t lines a b))

theorem processLine_inv {t : ℚ} {lines : List String} {s : EngineState} {raw : String}
    (h : EngineInv t lines s) : EngineInv t (lines ++ [raw]) (processLine t s raw) := by
  obtain ⟨hwf, hreg, hbridge⟩ := h
  cases hp : parsedLine raw with
  | none =>
    have hpl : processLine t s raw = s := by
      simp [processLine, hp]
    have htouch : ∀ g, ¬ touches raw g := by
      rintro g ⟨h1, h2, d2, hpe, -⟩
      rw [hp] at hpe
      exact absurd hpe (by simp)
    have hacc : acceptedEdge t raw = none := by
      simp [acceptedEdge, hp]
    rw [hpl]
    refine ⟨hwf, ?_, ?_⟩
    · intro g
      rw [hreg g, registered_snoc lines raw g]
      exact ⟨fun hh => Or.inl hh, fun hh => hh.resolve_right (htouch g)⟩
    · intro a b ha hb
      rw [hbridge a b ha hb]
      exact connected_congr (fun c e => (edgeRel_snoc_none hacc c e).symm) a b
  | some trip =>
    obtain ⟨g1, g2, d⟩ := trip
    have htouch : ∀ g, touches raw g ↔ (g = g1 ∨ g = g2) := by
      intro g
      constructor
      · rintro ⟨h1, h2, d2, hpe, hg⟩
        have hh := Option.some_inj.mp (hpe.symm.trans hp)
        rw [Prod.ext_iff] at hh
        obtain ⟨e1, e2⟩ := hh
        rw [Prod.ext_iff] at e2
        obtain ⟨e2a, -⟩ := e2
        rcases hg with hg | hg
        · exact Or.inl (hg.trans e1)
        · exact Or.inr (hg.trans e2a)
      · intro hg
        exact ⟨g1, g2, d, hp, hg⟩
    have hfresh1 : ∀ z, z ∉ keysList s.uf.parent → ¬ registered lines z :=
      fun z hz hr => hz ((hreg z).mpr hr)
    obtain ⟨hwf1, hmem1, hbr1⟩ := register_bridge g1 hwf hfresh1 hbridge
    have hfresh2 : ∀ z, z ∉ keysList (s.uf.find g1).1.parent → ¬ registered lines z := by
      intro z hz
      exact hfresh1 z (fun hzmem => hz ((hmem1 z).mpr (Or.inl hzmem)))
    obtain ⟨hwf2, hmem2, hbr2⟩ := register_bridge g2 hwf1 hfresh2 hbr1
    have hmem12 : ∀ z, z ∈ keysList ((s.uf.find g1).1.find g2).1.parent ↔
        (z ∈ keysList s.uf.parent ∨ z = g1 ∨ z = g2) := by
      intro z
      rw [hmem2 z, hmem1 z]
      tauto
    have hg1mem : g1 ∈ keysList ((s.uf.find g1).1.find g2).1.parent :=
      (hmem12 g1).mpr (Or.inr (Or.inl rfl))
    have hg2mem : g2 ∈ keysList ((s.uf.find g1).1.find g2).1.parent :=
      (hmem12 g2).mpr (Or.inr (Or.inr rfl))
    have hregkeys : ∀ g, g ∈ keysList ((s.uf.find g1).1.find g2).1.parent ↔
        registered (lines ++ [raw]) g := by
      intro g
      rw [hmem12 g, registered_snoc lines raw g, hreg g, htouch g]
    by_cases hcond : g1 ≠ g2 ∧ leFloat d t = true
    · have hufeq : (processLine t s raw).uf =
          ((s.uf.find g1).1.find g2).1.union g1 g2 := by
        simp only [processLine, hp]
        rw [if_pos hcond]
      have hacc : acceptedEdge t raw = some (g1, g2) := by
        simp only [acceptedEdge, hp]
        rw [if_pos hcond]
      obtain ⟨hkeysu, hwfu, hbru⟩ := union_sameRoot hwf2 hg1mem hg2mem
      refine ⟨?_, ?_, ?_⟩
      · rw [hufeq]
        exact hwfu
      · intro g
        rw [hufeq, hkeysu]
        exact hregkeys g
      · intro a b ha hb
        rw [hufeq] at ha hb ⊢
        rw [hkeysu] at ha hb
        rw [hbru a b ha hb]
        have hconn : ∀ c e, c ∈ keysList ((s.uf.find g1).1.find g2).1.parent →
            e ∈ keysList ((s.uf.find g1).1.find g2).1.parent →
            (sameRoot ((s.uf.find g1).1.find g2).1.parent c e ↔ connected t lines c e) :=
          hbr2
        rw [hconn a b ha hb, hconn a g1 ha hg1mem, hconn g2 b hg2mem hb,
            hconn a g2 ha hg2mem, hconn g1 b hg1mem hb]
        have hrtg := rtg_add_edge (edgeRel t lines) g1 g2 a b
        rw [show connected t (lines ++ [raw]) a b ↔
            Relation.ReflTransGen (fun c e => edgeRel t lines c e ∨
              (c = g1 ∧ e = g2) ∨ (c = g2 ∧ e = g1)) a b from ?_]
        · rw [hrtg]
          rfl
        · unfold connected
          constructor
          · intro hh
            exact Relation.ReflTransGen.mono
              (fun c e hce => (edgeRel_snoc_some hacc c e).mp hce) hh
          · intro hh
            exact Relation.ReflTransGen.mono
              (fun c e hce => (edgeRel_snoc_some hacc c e).mpr hce) hh
    · have hufeq : (processLine t s raw).uf = ((s.uf.find g1).1.find g2).1 := by
        simp only [processLine, hp]
        rw [if_neg hcond]
      have hacc : acceptedEdge t raw = none := by
        simp only [acceptedEdge, hp]
        rw [if_neg hcond]
      refine ⟨?_, ?_, ?_⟩
      · rw [hufeq]
        exact hwf2
      · intro g
        rw [hufeq]
        exact hregkeys g
      · intro a b ha hb
        rw [hufeq] at ha hb ⊢
        rw [hbr2 a b ha hb]
        exact connected_congr (fun c e => (edgeRel_snoc_none hacc c e).symm) a b

theorem runEngine_inv (t : ℚ) (lines : List String) :
    EngineInv t lines (runEngine t lines) := by
  induction lines using List.reverseRecOn with
  | nil =>
    refine ⟨⟨List.nodup_nil, rfl, ?_⟩, ?_, ?_⟩
    · intro z hz
      exact absurd hz (List.not_mem_nil z)
    · intro g
      constructor
      · intro hg
        exact absurd hg (List.not_mem_nil g)
      · rintro ⟨r, hr, -⟩
        exact absurd hr (List.not_mem_nil r)
    · intro a b ha hb
      exact absurd ha (List.not_mem_nil a)
  | append_singleton L raw ih =>
    have : runEngine t (L ++ [raw]) = processLine t (runEngine t L) raw := by
      simp [runEngine, List.foldl_append]
    rw [this]
    exact processLine_inv ih

/-! ## Grouping keys by root: `get_clusters` -/

theorem alookup_mem {β : Type} {l : List (String × β)} {k : String} {v : β}
    (h : alookup l k = some v) : (k, v) ∈ l := by
  induction l with
  | nil => simp [alookup] at h
  | cons hd tl ih =>
    obtain ⟨k2, v2⟩ := hd
    by_cases hk : k2 = k
    · simp only [alookup, if_pos hk] at h
      rw [List.mem_cons]
      exact Or.inl (by rw [hk, Option.some_inj.mp h])
    · simp only [alookup, if_neg hk] at h
      exact List.mem_cons.mpr (Or.inr (ih h))

theorem alookup_of_mem_nodup {β : Type} {l : List (String × β)} {k : String} {v : β}
    (hnd : (keysList l).Nodup) (h : (k, v) ∈ l) : alookup l k = some v := by
  induction l with
  | nil => simp at h
  | cons hd tl ih =>
    obtain ⟨k2, v2⟩ := hd
    rw [keysList_cons, List.nodup_cons] at hnd
    rcases List.mem_cons.mp h with h | h
    · have h1 : k = k2 := congrArg Prod.fst h
      have h2 : v = v2 := congrArg Prod.snd h
      rw [alookup, if_pos h1.symm, h2]
    · have hk : k2 ≠ k := by
        intro hh
        apply hnd.1
        rw [hh]
        exact List.mem_map.mpr ⟨(k, v), h, rfl⟩
      simp only [alookup, if_neg hk]
      exact ih hnd.2 h

/-- `addMember` is a dictionary update: append to the existing member list,
or append a fresh singleton group. -/
theorem addMember_eq (groups : List (String × List String)) (r x : String) :
    addMember groups r x =
      match alookup groups r with
      | some ms => dictSet groups r (ms ++ [x])
      | none => groups ++ [(r, [x])] := by
  induction groups with
  | nil => simp [addMember, alookup]
  | cons hd tl ih =>
    obtain ⟨k, ms⟩ := hd
    by_cases hk : k = r
    · simp [addMember, alookup, dictSet, hk]
    · simp only [addMember, if_neg hk, alookup, dictSet, ih]
      cases h2 : alookup tl r <;> simp [h2, dictSet, if_neg hk]

/-- The fold of `get_clusters`, with its invariant: after grouping `done`,
the groups have pairwise distinct root keys, each group lists exactly the
processed keys rooted at its key (in order, without duplicates), and keys
whose root has no group yet are unprocessed. -/
theorem get_clusters_fold (p0 : List (String × String)) :
    ∀ (todo : List String) (ufI : UnionFind) (groups : List (String × List String))
      (done : List String),
      UFwf ufI →
      (∀ z r2, Reaches ufI.parent z r2 ↔ Reaches p0 z r2) →
      (∀ z, z ∈ keysList ufI.parent ↔ z ∈ keysList p0) →
      (∀ xt, xt ∈ todo → xt ∈ keysList p0) →
      (∀ xt, xt ∈ todo → xt ∉ done) →
      todo.Nodup →
      (keysList groups).Nodup →
      (∀ r ms, alookup groups r = some ms →
        (∀ x2, x2 ∈ ms ↔ (x2 ∈ done ∧ Reaches p0 x2 r)) ∧ ms.Nodup ∧ Reaches p0 r r) →
      (∀ r, alookup groups r = none → ∀ x2, x2 ∈ done → ¬ Reaches p0 x2 r) →
      (keysList (todo.foldl
          (fun acc x => ((acc.1.find x).1, addMember acc.2 (acc.1.find x).2 x))
          (ufI, groups)).2).Nodup ∧
      (∀ r ms, alookup (todo.foldl
          (fun acc x => ((acc.1.find x).1, addMember acc.2 (acc.1.find x).2 x))
          (ufI, groups)).2 r = some ms →
        (∀ x2, x2 ∈ ms ↔ ((x2 ∈ done ∨ x2 ∈ todo) ∧ Reaches p0 x2 r)) ∧
          ms.Nodup ∧ Reaches p0 r r) ∧
      (∀ r, alookup (todo.foldl
          (fun acc x => ((acc.1.find x).1, addMember acc.2 (acc.1.find x).2 x))
          (ufI, groups)).2 r = none →
        ∀ x2, (x2 ∈ done ∨ x2 ∈ todo) → ¬ Reaches p0 x2 r) := by
  intro todo
  induction todo with
  | nil =>
    intro ufI groups done hwf hiff hkeys htodo hdisj hnd hgnd hsome hnone
    refine ⟨hgnd, ?_, ?_⟩
    · intro r ms h
      obtain ⟨hmem, hndm, hroot⟩ := hsome r ms h
      refine ⟨?_, hndm, hroot⟩
      intro x2
      rw [hmem x2]
      simp
    · intro r h x2 hx2
      rcases hx2 with hx2 | hx2
      · exact hnone r h x2 hx2
      · exact absurd hx2 (List.not_mem_nil x2)
  | cons x todo2 ih =>
    intro ufI groups done hwf hiff hkeys htodo hdisj hnd hgnd hsome hnone
    have hxmem : x ∈ keysList ufI.parent :=
      (hkeys x).mpr (htodo x (List.mem_cons_self x todo2))
    obtain ⟨p2, r, heq, hreach, hkeys2, hiff2⟩ := find_registered hwf hxmem
    have hreach0 : Reaches p0 x r := (hiff x r).mp hreach
    have hroot0 : Reaches p0 r r := reaches_root_self hreach0
    have hwf2 : UFwf ⟨p2, ufI.rank⟩ := wf_of_find hwf hkeys2 hiff2
    have hiff20 : ∀ z r2, Reaches p2 z r2 ↔ Reaches p0 z r2 := by
      intro z r2
      rw [hiff2 z r2]
      exact hiff z r2
    have hkeys20 : ∀ z, z ∈ keysList p2 ↔ z ∈ keysList p0 := by
      intro z
      rw [hkeys2]
      exact hkeys z
    have hfold : (List.foldl
        (fun acc x => ((acc.1.find x).1, addMember acc.2 (acc.1.find x).2 x))
        (ufI, groups) (x :: todo2)) =
        (List.foldl (fun acc x => ((acc.1.find x).1, addMember acc.2 (acc.1.find x).2 x))
          (⟨p2, ufI.rank⟩, addMember groups r x) todo2) := by
      rw [List.foldl_cons, heq]
    rw [hfold]
    have hxdone : x ∉ done := hdisj x (List.mem_cons_self x todo2)
    rw [List.nodup_cons] at hnd
    -- establish the invariant for the extended accumulator
    have happly := ih ⟨p2, ufI.rank⟩ (addMember groups r x) (done ++ [x]) hwf2 hiff20
      hkeys20 (fun xt hxt => htodo xt (List.mem_cons_of_mem x hxt))
      (fun xt hxt => by
        rw [List.mem_append, List.mem_singleton]
        rintro (hh | hh)
        · exact hdisj xt (List.mem_cons_of_mem x hxt) hh
        · rw [hh] at hxt
          exact hnd.1 hxt)
      hnd.2 ?gnd ?gsome ?gnone
    · obtain ⟨c1, c2, c3⟩ := happly
      refine ⟨c1, ?_, ?_⟩
      · intro r2 ms2 h2
        obtain ⟨hmem, hndm, hroot⟩ := c2 r2 ms2 h2
        refine ⟨?_, hndm, hroot⟩
        intro x2
        rw [hmem x2, List.mem_append, List.mem_singleton, List.mem_cons]
        tauto
      · intro r2 h2 x2 hx2
        refine c3 r2 h2 x2 ?_
        rw [List.mem_append, List.mem_singleton]
        rw [List.mem_cons] at hx2
        tauto
    case gnd =>
      rw [addMember_eq]
      cases hg : alookup groups r with
      | some ms =>
        rw [keysList_dictSet_mem groups r (ms ++ [x])
          (mem_keysList_of_alookup groups r ms hg)]
        exact hgnd
      | none =>
        rw [keysList_append]
        rw [List.nodup_append]
        refine ⟨hgnd, List.nodup_singleton r, ?_⟩
        intro z hz hz2
        rw [show keysList [(r, [x])] = [r] from rfl, List.mem_singleton] at hz2
        rw [hz2] at hz
        rw [alookup_none_iff] at hg
        exact hg hz
    case gsome =>
      intro r2 ms2 h2
      rw [addMember_eq] at h2
      cases hg : alookup groups r with
      | some ms =>
        rw [hg] at h2
        by_cases hr2 : r2 = r
        · rw [hr2, alookup_dictSet_self] at h2
          have hms2 : ms2 = ms ++ [x] := (Option.some_inj.mp h2).symm
          obtain ⟨hmem, hndm, -⟩ := hsome r ms hg
          have hmsdone : ∀ x2, x2 ∈ ms → x2 ∈ done := fun x2 hx2 => ((hmem x2).mp hx2).1
          refine ⟨?_, ?_, by rw [hr2]; exact hroot0⟩
          · intro x2
            rw [hms2]
            simp only [List.mem_append, List.mem_singleton]
            rw [hmem x2, hr2]
            constructor
            · rintro (⟨hh1, hh2⟩ | hh)
              · exact ⟨Or.inl hh1, hh2⟩
              · rw [hh]
                exact ⟨Or.inr rfl, hreach0⟩
            · rintro ⟨hh1 | hh1, hh2⟩
              · exact Or.inl ⟨hh1, hh2⟩
              · exact Or.inr hh1
          · rw [hms2, List.nodup_append]
            refine ⟨hndm, List.nodup_singleton x, ?_⟩
            intro z hz hz2
            rw [List.mem_singleton] at hz2
            rw [hz2] at hz
            exact hxdone (hmsdone x hz)
        · rw [alookup_dictSet_ne groups r r2 (ms ++ [x]) hr2] at h2
          obtain ⟨hmem, hndm, hroot⟩ := hsome r2 ms2 h2
          refine ⟨?_, hndm, hroot⟩
          intro x2
          rw [hmem x2]
          simp only [List.mem_append, List.mem_singleton]
          constructor
          · rintro ⟨hh1, hh2⟩
            exact ⟨Or.inl hh1, hh2⟩
          · rintro ⟨hh1 | hh1, hh2⟩
            · exact ⟨hh1, hh2⟩
            · rw [hh1] at hh2
              exact absurd (reaches_det hreach0 hh2) (fun hh => hr2 hh.symm)
      | none =>
        rw [hg] at h2
        by_cases hr2 : r2 = r
        · rw [hr2, alookup_append_right groups [(r, [x])] r
            ((alookup_none_iff groups r).mp hg)] at h2
          have hms2 : ms2 = [x] := by
            simp [alookup] at h2
            exact h2.symm
          refine ⟨?_, by rw [hms2]; exact List.nodup_singleton x,
            by rw [hr2]; exact hroot0⟩
          intro x2
          rw [hms2]
          simp only [List.mem_append, List.mem_singleton]
          rw [hr2]
          constructor
          · intro hh
            rw [hh]
            exact ⟨Or.inr rfl, hreach0⟩
          · rintro ⟨hh1 | hh1, hh2⟩
            · exact absurd hh2 (hnone r hg x2 hh1)
            · exact hh1
        · have h2b : alookup groups r2 = some ms2 := by
            by_cases hmem2 : r2 ∈ keysList groups
            · rw [alookup_append_left groups [(r, [x])] r2 hmem2] at h2
              exact h2
            · rw [alookup_append_right groups [(r, [x])] r2 hmem2] at h2
              rw [alookup, if_neg (fun hh : r = r2 => hr2 hh.symm)] at h2
              exact absurd h2 (by simp [alookup])
          obtain ⟨hmem, hndm, hroot⟩ := hsome r2 ms2 h2b
          refine ⟨?_, hndm, hroot⟩
          intro x2
          rw [hmem x2]
          simp only [List.mem_append, List.mem_singleton]
          constructor
          · rintro ⟨hh1, hh2⟩
            exact ⟨Or.inl hh1, hh2⟩
          · rintro ⟨hh1 | hh1, hh2⟩
            · exact ⟨hh1, hh2⟩
            · rw [hh1] at hh2
              exact absurd (reaches_det hreach0 hh2) (fun hh => hr2 hh.symm)
    case gnone =>
      intro r2 h2 x2 hx2 hreach2
      rw [addMember_eq] at h2
      cases hg : alookup groups r with
      | some ms =>
        rw [hg] at h2
        by_cases hr2 : r2 = r
        · rw [hr2, alookup_dictSet_self] at h2
          exact absurd h2 (by simp)
        · rw [alookup_dictSet_ne groups r r2 (ms ++ [x]) hr2] at h2
          simp only [List.mem_append, List.mem_singleton] at hx2
          rcases hx2 with hx2 | hx2
          · exact hnone r2 h2 x2 hx2 hreach2
          · rw [hx2] at hreach2
            exact hr2 (reaches_det hreach2 hreach0)
      | none =>
        rw [hg] at h2
        by_cases hr2 : r2 = r
        · rw [hr2, alookup_append_right groups [(r, [x])] r
            ((alookup_none_iff groups r).mp hg)] at h2
          exact absurd h2 (by simp [alookup])
        · have h2b : alookup groups r2 = none := by
            by_cases hmem2 : r2 ∈ keysList groups
            · rw [alookup_append_left groups [(r, [x])] r2 hmem2] at h2
              exact h2
            · exact (alookup_none_iff groups r2).mpr hmem2
          simp only [List.mem_append, List.mem_singleton] at hx2
          rcases hx2 with hx2 | hx2
          · exact hnone r2 h2b x2 hx2 hreach2
          · rw [hx2] at hreach2
            exact hr2 (reaches_det hreach2 hreach0)

theorem get_clusters_spec {s : UnionFind} (hwf : UFwf s) :
    (keysList (s.get_clusters).2).Nodup ∧
    (∀ r ms, alookup (s.get_clusters).2 r = some ms →
      (∀ x2, x2 ∈ ms ↔ (x2 ∈ keysList s.parent ∧ Reaches s.parent x2 r)) ∧
        ms.Nodup ∧ Reaches s.parent r r) ∧
    (∀ r, alookup (s.get_clusters).2 r = none →
      ∀ x2, x2 ∈ keysList s.parent → ¬ Reaches s.parent x2 r) := by
  have heq : s.get_clusters = (keysList s.parent).foldl
      (fun acc x => ((acc.1.find x).1, addMember acc.2 (acc.1.find x).2 x)) (s, []) := rfl
  obtain ⟨c1, c2, c3⟩ := get_clusters_fold s.parent (keysList s.parent) s [] []
    hwf (fun z r2 => Iff.rfl) (fun z => Iff.rfl) (fun xt h => h)
    (fun xt h => List.not_mem_nil xt) hwf.1 List.nodup_nil
    (fun r ms h => absurd h (by simp [alookup]))
    (fun r h x2 hx2 => absurd hx2 (List.not_mem_nil x2))
  rw [heq]
  refine ⟨c1, ?_, ?_⟩
  · intro r ms h
    obtain ⟨hm, hnd2, hr⟩ := c2 r ms h
    refine ⟨?_, hnd2, hr⟩
    intro x2
    rw [hm x2]
    simp
  · intro r h x2 hx2
    exact c3 r h x2 (Or.inr hx2)

/-! ## The stable size-descending sort -/

theorem insertDesc_perm (c : String × List String) (l : List (String × List String)) :
    List.Perm (insertDesc c l) (c :: l) := by
  induction l with
  | nil => exact List.Perm.refl _
  | cons d rest ih =>
    by_cases h : d.2.length ≤ c.2.length
    · rw [insertDesc, if_pos h]
    · rw [insertDesc, if_neg h]
      exact List.Perm.trans (List.Perm.cons d ih) (List.Perm.swap c d rest)

theorem sortClusters_perm (l : List (String × List String)) :
    List.Perm (sortClusters l) l := by
  induction l with
  | nil => exact List.Perm.refl _
  | cons c rest ih =>
    rw [sortClusters]
    exact List.Perm.trans (insertDesc_perm c (sortClusters rest)) (List.Perm.cons c ih)

theorem insertDesc_sorted (c : String × List String) (l : List (String × List String))
    (h : l.Pairwise (fun a b => b.2.length ≤ a.2.length)) :
    (insertDesc c l).Pairwise (fun a b => b.2.length ≤ a.2.length) := by
  induction l with
  | nil => simp [insertDesc]
  | cons d rest ih =>
    rw [List.pairwise_cons] at h
    by_cases hc : d.2.length ≤ c.2.length
    · rw [insertDesc, if_pos hc]
      rw [List.pairwise_cons]
      refine ⟨?_, List.pairwise_cons.mpr h⟩
      intro e he
      rcases List.mem_cons.mp he with he | he
      · rw [he]
        exact hc
      · exact le_trans (h.1 e he) hc
    · rw [insertDesc, if_neg hc]
      rw [List.pairwise_cons]
      refine ⟨?_, ih h.2⟩
      intro e he
      have := (insertDesc_perm c rest).mem_iff.mp he
      rcases List.mem_cons.mp this with he2 | he2
      · rw [he2]
        omega
      · exact h.1 e he2

theorem sortClusters_sorted (l : List (String × List String)) :
    (sortClusters l).Pairwise (fun a b => b.2.length ≤ a.2.length) := by
  induction l with
  | nil => simp [sortClusters]
  | cons c rest ih => exact insertDesc_sorted c (sortClusters rest) ih

theorem insertDesc_filter (c : String × List String) (l : List (String × List String))
    (k : Nat) :
    (insertDesc c l).filter (fun d => d.2.length = k) =
      if c.2.length = k then c :: l.filter (fun d => d.2.length = k)
      else l.filter (fun d => d.2.length = k) := by
  induction l with
  | nil =>
    rw [insertDesc]
    by_cases hk : c.2.length = k
    · simp [List.filter, hk]
    · simp [List.filter, hk]
  | cons d rest ih =>
    by_cases hc : d.2.length ≤ c.2.length
    · rw [insertDesc, if_pos hc]
      by_cases hk : c.2.length = k
      · simp [List.filter_cons, hk]
      · simp [List.filter_cons, hk]
    · rw [insertDesc, if_neg hc]
      by_cases hk : c.2.length = k
      · have hdk : ¬ d.2.length = k := by omega
        rw [if_pos hk]
        rw [List.filter_cons, List.filter_cons]
        simp only [hdk]
        rw [ih, if_pos hk]
        simp
      · rw [if_neg hk]
        rw [List.filter_cons, List.filter_cons]
        by_cases hdk : d.2.length = k
        · simp only [hdk]
          rw [ih, if_neg hk]
        · simp only [hdk]
          rw [ih, if_neg hk]

/-- Stability of the size-descending sort: within each size class, the
original relative order of the clusters is preserved. -/
theorem sortClusters_stable (l : List (String × List String)) (k : Nat) :
    (sortClusters l).filter (fun d => d.2.length = k) =
      l.filter (fun d => d.2.length = k) := by
  induction l with
  | nil => rfl
  | cons c rest ih =>
    rw [sortClusters, insertDesc_filter, List.filter_cons]
    by_cases hk : c.2.length = k
    · rw [if_pos hk, ih]
      simp [hk]
    · rw [if_neg hk, ih]
      simp [hk]

theorem insertStr_perm (x : String) (l : List String) :
    List.Perm (insertStr x l) (x :: l) := by
  induction l with
  | nil => exact List.Perm.refl _
  | cons y rest ih =>
    by_cases h : lexLtChars x.data y.data
    · rw [insertStr, if_pos h]
    · rw [insertStr, if_neg h]
      exact List.Perm.trans (List.Perm.cons y ih) (List.Perm.swap x y rest)

theorem sortStrings_perm (l : List String) : List.Perm (sortStrings l) l := by
  induction l with
  | nil => exact List.Perm.refl _
  | cons x rest ih =>
    rw [sortStrings]
    exact List.Perm.trans (insertStr_perm x (sortStrings rest)) (List.Perm.cons x ih)

/-! ## Looking up one genome's row of the membership table -/

theorem keysList_rowblock (l : List String) (i sz : Nat) :
    keysList (l.map (fun g2 => (g2, i, sz))) = l := by
  induction l with
  | nil => rfl
  | cons y rest ih =>
    rw [List.map_cons, keysList_cons, ih]

theorem alookup_rowblock (l : List String) (i sz : Nat) (g : String) (h : g ∈ l) :
    alookup (l.map (fun g2 => (g2, i, sz))) g = some (i, sz) := by
  induction l with
  | nil => exact absurd h (List.not_mem_nil g)
  | cons y rest ih =>
    rw [List.map_cons]
    by_cases hy : y = g
    · rw [alookup, if_pos hy]
    · rw [alookup, if_neg hy]
      exact ih (by rcases List.mem_cons.mp h with hh | hh
                   · exact absurd hh.symm hy
                   · exact hh)

theorem rows_lookup_none :
    ∀ (nc : List (String × List String)) (n : Nat) (g : String),
      (∀ r ms, (r, ms) ∈ nc → g ∉ ms) →
      alookup (((List.enumFrom n nc).map
        (fun p => (sortStrings p.2.2).map (fun g2 => (g2, p.1, p.2.2.length)))).flatten) g
        = none := by
  intro nc
  induction nc with
  | nil =>
    intro n g h
    rfl
  | cons c rest ih =>
    intro n g h
    obtain ⟨r0, ms0⟩ := c
    rw [List.enumFrom_cons, List.map_cons, List.flatten_cons]
    have hg : g ∉ sortStrings ms0 := fun hmem =>
      h r0 ms0 (List.mem_cons_self _ _) ((sortStrings_perm ms0).mem_iff.mp hmem)
    rw [alookup_append_right _ _ g (by rw [keysList_rowblock]; exact hg)]
    exact ih (n + 1) g (fun r2 ms2 hm => h r2 ms2 (List.mem_cons_of_mem _ hm))

theorem rows_lookup_some :
    ∀ (nc : List (String × List String)) (n : Nat) (g r : String) (ms : List String),
      (r, ms) ∈ nc → g ∈ ms →
      (∀ r2 ms2, (r2, ms2) ∈ nc → g ∈ ms2 → r2 = r ∧ ms2 = ms) →
      ∃ k, nc.get? k = some (r, ms) ∧
        alookup (((List.enumFrom n nc).map
          (fun p => (sortStrings p.2.2).map (fun g2 => (g2, p.1, p.2.2.length)))).flatten) g
          = some (n + k, ms.length) := by
  intro nc
  induction nc with
  | nil =>
    intro n g r ms h
    exact absurd h (List.not_mem_nil _)
  | cons c rest ih =>
    intro n g r ms hmem hg huniq
    obtain ⟨r0, ms0⟩ := c
    rw [List.enumFrom_cons, List.map_cons, List.flatten_cons]
    by_cases hgc : g ∈ ms0
    · obtain ⟨hr0, hms0⟩ := huniq r0 ms0 (List.mem_cons_self _ _) hgc
      refine ⟨0, ?_, ?_⟩
      · rw [List.get?_cons_zero, hr0, hms0]
      · rw [alookup_append_left _ _ g
          (by rw [keysList_rowblock]; exact (sortStrings_perm ms0).mem_iff.mpr hgc)]
        rw [alookup_rowblock (sortStrings ms0) n ms0.length g
          ((sortStrings_perm ms0).mem_iff.mpr hgc)]
        rw [hms0, Nat.add_zero]
    · have hmem2 : (r, ms) ∈ rest := by
        rcases List.mem_cons.mp hmem with hh | hh
        · exfalso
          have : ms = ms0 := congrArg Prod.snd hh
          rw [this] at hg
          exact hgc hg
        · exact hh
      obtain ⟨k, hk, hlook⟩ := ih (n + 1) g r ms hmem2 hg
        (fun r2 ms2 hm hgm => huniq r2 ms2 (List.mem_cons_of_mem _ hm) hgm)
      refine ⟨k + 1, ?_, ?_⟩
      · rw [List.get?_cons_succ]
        exact hk
      · rw [alookup_append_right _ _ g
          (by rw [keysList_rowblock]
              exact fun hmem3 => hgc ((sortStrings_perm ms0).mem_iff.mp hmem3))]
        rw [hlook]
        have : n + 1 + k = n + (k + 1) := by omega
        rw [this]

/-- Position of a registered genome in the final membership table: its row
is `(cluster index, size of its class)`, where the class at that index of
the sorted cluster list is exactly its connectivity class. -/
theorem assignOf_char {s : EngineState} (hwf : UFwf s.uf) {g : String}
    (hg : g ∈ keysList s.uf.parent) :
    ∃ k r ms, (sortClusters (clustersOf s)).get? k = some (r, ms) ∧
      assignOf s g = some (k, ms.length) ∧ g ∈ ms ∧ ms.Nodup ∧
      Reaches s.uf.parent g r ∧
      (∀ x2, x2 ∈ ms ↔ (x2 ∈ keysList s.uf.parent ∧ Reaches s.uf.parent x2 r)) := by
  obtain ⟨gnd, gsome, gnone⟩ := get_clusters_spec hwf
  obtain ⟨r, hr⟩ := hwf.2.2 g hg
  have hlookup : ∃ ms, alookup (clustersOf s) r = some ms := by
    cases hl : alookup (clustersOf s) r with
    | none => exact absurd hr (gnone r hl g hg)
    | some ms => exact ⟨ms, rfl⟩
  obtain ⟨ms, hms⟩ := hlookup
  obtain ⟨hmem, hndms, hroot⟩ := gsome r ms hms
  have hgms : g ∈ ms := (hmem g).mpr ⟨hg, hr⟩
  have hentry : (r, ms) ∈ sortClusters (clustersOf s) :=
    (sortClusters_perm (clustersOf s)).mem_iff.mpr (alookup_mem hms)
  have huniq : ∀ r2 ms2, (r2, ms2) ∈ sortClusters (clustersOf s) → g ∈ ms2 →
      r2 = r ∧ ms2 = ms := by
    intro r2 ms2 hm2 hg2
    have hm2g : (r2, ms2) ∈ clustersOf s := (sortClusters_perm _).mem_iff.mp hm2
    have hl2 : alookup (clustersOf s) r2 = some ms2 := alookup_of_mem_nodup gnd hm2g
    obtain ⟨hmem2, -, -⟩ := gsome r2 ms2 hl2
    have hreach2 : Reaches s.uf.parent g r2 := ((hmem2 g).mp hg2).2
    have hr2r : r2 = r := reaches_det hreach2 hr
    refine ⟨hr2r, ?_⟩
    rw [hr2r] at hl2
    exact Option.some_inj.mp (hl2.symm.trans hms)
  obtain ⟨k, hk, hlook⟩ := rows_lookup_some (sortClusters (clustersOf s)) 0 g r ms
    hentry hgms huniq
  refine ⟨k, r, ms, hk, ?_, hgms, hndms, hr, hmem⟩
  show alookup (assignmentOf s) g = some (k, ms.length)
  rw [show assignmentOf s = ((List.enumFrom 0 (sortClusters (clustersOf s))).map
      (fun p => (sortStrings p.2.2).map (fun g2 => (g2, p.1, p.2.2.length)))).flatten
    from rfl]
  rw [hlook]
  rw [Nat.zero_add]

/-- An undiscovered genome has no row in the membership table. -/
theorem assignOf_none {s : EngineState} (hwf : UFwf s.uf) {g : String}
    (hg : g ∉ keysList s.uf.parent) : assignOf s g = none := by
  obtain ⟨gnd, gsome, gnone⟩ := get_clusters_spec hwf
  show alookup (assignmentOf s) g = none
  rw [show assignmentOf s = ((List.enumFrom 0 (sortClusters (clustersOf s))).map
      (fun p => (sortStrings p.2.2).map (fun g2 => (g2, p.1, p.2.2.length)))).flatten
    from rfl]
  apply rows_lookup_none
  intro r ms hm hgm
  have hl : alookup (clustersOf s) r = some ms :=
    alookup_of_mem_nodup gnd ((sortClusters_perm _).mem_iff.mp hm)
  obtain ⟨hmem, -, -⟩ := gsome r ms hl
  exact hg ((hmem g).mp hgm).1

/-! ## Remaining bridging lemmas -/

theorem get?_keys_inj {l : List (String × List String)} (hnd : (keysList l).Nodup)
    {i j : Nat} {r : String} {msi msj : List String}
    (hi : l.get? i = some (r, msi)) (hj : l.get? j = some (r, msj)) : i = j := by
  have hki : (keysList l).get? i = some r := by
    rw [keysList, List.get?_eq_getElem?, List.getElem?_map, ← List.get?_eq_getElem?, hi]
    rfl
  have hkj : (keysList l).get? j = some r := by
    rw [keysList, List.get?_eq_getElem?, List.getElem?_map, ← List.get?_eq_getElem?, hj]
    rfl
  obtain ⟨hilt, hgi⟩ := List.get?_eq_some.mp hki
  obtain ⟨hjlt, hgj⟩ := List.get?_eq_some.mp hkj
  have : (keysList l).get ⟨i, hilt⟩ = (keysList l).get ⟨j, hjlt⟩ := by
    rw [hgi, hgj]
  have := (List.Nodup.get_inj_iff hnd).mp this
  exact congrArg Fin.val this

theorem leFloat_mono {d : FloatVal} {t1 t2 : ℚ} (h : t1 ≤ t2)
    (hle : leFloat d t1 = true) : leFloat d t2 = true := by
  cases d with
  | finite q =>
    rw [leFloat, decide_eq_true_iff] at hle ⊢
    exact le_trans hle h
  | posInf => exact absurd hle (by rw [leFloat]; simp)
  | negInf => rfl
  | nan => exact absurd hle (by rw [leFloat]; simp)

theorem acceptedEdge_mono {t1 t2 : ℚ} (h : t1 ≤ t2) (raw : String)
    {e : String × String} (he : acceptedEdge t1 raw = some e) :
    acceptedEdge t2 raw = some e := by
  cases hp : parsedLine raw with
  | none =>
    simp only [acceptedEdge, hp] at he
    exact absurd he (by simp)
  | some trip =>
    obtain ⟨g1, g2, d⟩ := trip
    simp only [acceptedEdge, hp] at he ⊢
    by_cases hcond : g1 ≠ g2 ∧ leFloat d t1 = true
    · rw [if_pos hcond] at he
      rw [if_pos ⟨hcond.1, leFloat_mono h hcond.2⟩]
      exact he
    · rw [if_neg hcond] at he
      exact absurd he (by simp)

theorem connected_t_mono {t1 t2 : ℚ} (h : t1 ≤ t2) (lines : List String)
    (a b : String) (hc : connected t1 lines a b) : connected t2 lines a b := by
  refine connected_mono ?_ a b hc
  intro c e hce
  obtain ⟨raw, hraw, hacc⟩ := hce
  rcases hacc with hacc | hacc
  · exact ⟨raw, hraw, Or.inl (acceptedEdge_mono h raw hacc)⟩
  · exact ⟨raw, hraw, Or.inr (acceptedEdge_mono h raw hacc)⟩

/-- A data line with fewer than three tab-separated fields, or whose third
field does not parse as a float, yields no edge. -/
theorem malformed_parsedLine_none (raw : String)
    (h : (splitOnChar '\t' (stripChars raw.data)).length < 3 ∨
      parseFloatChars ((splitOnChar '\t' (stripChars raw.data)).getD 2 []) = none) :
    parsedLine raw = none := by
  rw [parsedLine]
  by_cases hb : stripChars raw.data = []
  · rw [if_pos hb]
  · rw [if_neg hb]
    by_cases hc : (stripChars raw.data).head? = some '#'
    · rw [if_pos hc]
    · rw [if_neg hc]
      by_cases hlen : (splitOnChar '\t' (stripChars raw.data)).length < 3
      · rw [if_pos hlen]
      · rw [if_neg hlen]
        rcases h with h | h
        · exact absurd h hlen
        · rw [h]

/-- Number of clusters reported by the run (`len(clusters)`). -/
def numClusters (s : EngineState) : Nat := (clustersOf s).length

theorem reps_char {s : EngineState} (hwf : UFwf s.uf) (r : String) :
    r ∈ keysList (clustersOf s) ↔
      (r ∈ keysList s.uf.parent ∧ Reaches s.uf.parent r r) := by
  obtain ⟨gnd, gsome, gnone⟩ := get_clusters_spec hwf
  constructor
  · intro hr
    obtain ⟨ms, hms⟩ := Option.isSome_iff_exists.mp ((alookup_isSome_iff _ _).mpr hr)
    obtain ⟨-, -, hroot⟩ := gsome r ms hms
    exact ⟨reaches_mem hroot, hroot⟩
  · rintro ⟨hmem, hroot⟩
    cases hl : alookup (clustersOf s) r with
    | none => exact absurd hroot (gnone r hl r hmem)
    | some ms => exact mem_keysList_of_alookup _ r ms hl

/-! ## The claims -/

/-- C1: the claim states that canonicalization strips only a trailing
`.fa` / `.fasta` / `.fna` suffix after taking the final path segment, so
that `"dir/A.fasta"`, `"A.fa"` and `"A"` all resolve to the same GenomeId.
The code instead uses `str.replace`, which deletes the substring `.fa`
anywhere, so `"dir/A.fasta"` becomes `"Asta"` while `"A.fa"` and `"A"`
become `"A"` — a code bug (the code's own comment says "remove path and
extension", and the spec-modelled `canonSpec` gives `"A"` in all three
cases).  This theorem evaluates the code at the failing input. -/
theorem claim_C1 :
    canonicalize "dir/A.fasta" = "Asta" ∧ canonicalize "A.fa" = "A" ∧
    canonicalize "A" = "A" ∧ canonicalize "dir/A.fasta" ≠ canonicalize "A.fa" ∧
    canonSpec "dir/A.fasta" = "A" ∧ canonSpec "A.fa" = "A" ∧ canonSpec "A" = "A" := by
  decide

/-- C2 counterexample: the claim says cluster ids are a pure function of
the edge content, with ties among equal-size classes broken by the
lexicographically smallest member, so that permuting input lines cannot
change any genome's cluster id.  With the two equal-size clusters
`{A,B}` and `{X,Y}` (`A < X`), genome `A` receives id 0 or id 1
depending on the order of the two lines, refuting the claim. -/
theorem claim_C2_counterexample :
    assignOf (runEngine (mkRat 1 20) ["A\tB\t0.01", "X\tY\t0.01"]) "A" = some (0, 2) ∧
    assignOf (runEngine (mkRat 1 20) ["X\tY\t0.01", "A\tB\t0.01"]) "A" = some (1, 2) := by
  decide

/-- C2 (amended): the cluster list is ordered by descending member count,
and ties among equal-size classes keep the relative first-appearance
order of the enumeration (Python's stable `sorted` over dict insertion
order), not the lexicographically-smallest-member order; cluster ids are
therefore deterministic for a fixed input sequence but not invariant
under permutation of the lines.  The theorem states the three defining
properties of the code's sort: it permutes the class list, orders it by
descending size, and preserves the relative order within every size
class. -/
theorem claim_C2 (l : List (String × List String)) :
    List.Perm (sortClusters l) l ∧
    (sortClusters l).Pairwise (fun a b => b.2.length ≤ a.2.length) ∧
    ∀ k, (sortClusters l).filter (fun d => d.2.length = k) =
      l.filter (fun d => d.2.length = k) :=
  ⟨sortClusters_perm l, sortClusters_sorted l, fun k => sortClusters_stable l k⟩

/-- C3: the claim (and the spec's error-handling design) says a stream
from which zero vertices are discovered completes normally with zero
clusters.  The clustering phase indeed produces zero clusters, but the
statistics step then evaluates `max(sizes)` on an empty list, which
raises `ValueError` (and the mean would divide by zero) — modelled by
`reportStats` returning `none`.  The code aborts instead of completing:
a code bug, evaluated here on an empty stream and on a stream of only
comment/blank/malformed lines. -/
theorem claim_C3 :
    clustersOf (runEngine (mkRat 1 20) []) = [] ∧
    reportStats (runEngine (mkRat 1 20) []) = none ∧
    clustersOf (runEngine (mkRat 1 20) ["# mash header", "", "only\ttwo"]) = [] ∧
    reportStats (runEngine (mkRat 1 20) ["# mash header", "", "only\ttwo"]) = none := by
  decide

/-- C5 counterexample: the claim says a malformed line is skipped AND the
event is recorded as a structured diagnostic (with the line content) so
an aggregate error count can be reported.  The code records nothing: the
entire engine state after processing a malformed line is identical to
the state had the line never been present, so no diagnostic and no error
count exist anywhere. -/
theorem claim_C5_counterexample :
    runEngine (mkRat 1 20) ["A\tB\t0.2", "X\tY"] =
      runEngine (mkRat 1 20) ["A\tB\t0.2"] := by
  decide

/-- C5 (amended): every malformed data line (fewer than three
tab-separated fields, or an unparsable distance token) is skipped
without raising and the stream continues with the following lines, but
the skip is silent: no diagnostic is recorded and no error count is
kept — the run over the stream with the malformed line equals the run
over the stream without it. -/
theorem claim_C5 (t : ℚ) (pre post : List String) (raw : String)
    (h : (splitOnChar '\t' (stripChars raw.data)).length < 3 ∨
      parseFloatChars ((splitOnChar '\t' (stripChars raw.data)).getD 2 []) = none) :
    runEngine t (pre ++ raw :: post) = runEngine t (pre ++ post) := by
  have hnone := malformed_parsedLine_none raw h
  unfold runEngine
  rw [List.foldl_append, List.foldl_append, List.foldl_cons]
  have : processLine t (pre.foldl (processLine t) initState) raw =
      pre.foldl (processLine t) initState := by
    simp [processLine, hnone]
  rw [this]

/-- C5 witness. -/
theorem claim_C5_witness :
    runEngine (mkRat 1 20) (["A\tB\t0.2"] ++ "X\tY" :: []) =
      runEngine (mkRat 1 20) (["A\tB\t0.2"] ++ []) :=
  claim_C5 (mkRat 1 20) ["A\tB\t0.2"] [] "X\tY" (by decide)

/-- C6 counterexample: the claim says only tokens parsing to a finite
float are accepted, and that `inf` or `nan` are "bad distance" parse
failures whose lines are skipped.  In the code `float('inf')` succeeds:
the line registers both genomes and counts toward `total_edges`, so it
is not treated as a parse failure. -/
theorem claim_C6_counterexample :
    (runEngine (mkRat 1 20) ["A\tB\tinf"]).total_edges = 1 ∧
    (runEngine (mkRat 1 20) ["A\tB\tinf"]).genomes = ["A", "B"] := by
  decide

/-- C6 (amended): the distance token is accepted exactly when it parses
as a Python float, which includes the non-finite `inf` / `infinity` /
`nan` spellings (any case, optionally signed); genuinely non-numeric
tokens fail.  An accepted non-finite edge registers its endpoints and
counts toward `total_edges`; distances `inf` and `nan` never satisfy
`distance <= threshold` and so never merge, while `-inf` always does. -/
theorem claim_C6 (t : ℚ) (s : EngineState) :
    parseFloatChars "inf".data = some FloatVal.posInf ∧
    parseFloatChars "NaN".data = some FloatVal.nan ∧
    parseFloatChars "-Infinity".data = some FloatVal.negInf ∧
    parseFloatChars "abc".data = none ∧
    leFloat FloatVal.posInf t = false ∧
    leFloat FloatVal.nan t = false ∧
    leFloat FloatVal.negInf t = true ∧
    (processLine t s "A\tB\tinf").total_edges = s.total_edges + 1 ∧
    (processLine t s "A\tB\tinf").edges_below_threshold = s.edges_below_threshold := by
  have hp : parsedLine "A\tB\tinf" = some ("A", "B", FloatVal.posInf) := by decide
  have hcond : ¬ (("A" : String) ≠ "B" ∧ leFloat FloatVal.posInf t = true) := by
    rintro ⟨-, hle⟩
    exact absurd hle (by rw [leFloat]; simp)
  refine ⟨by decide, by decide, by decide, by decide, rfl, rfl, rfl, ?_, ?_⟩
  · simp only [processLine, hp]
    rw [if_neg hcond]
  · simp only [processLine, hp]
    rw [if_neg hcond]

/-- C7 counterexample: the claim says calling `find` with an unregistered
GenomeId is a fatal contract violation that aborts the run, and in
particular that `find` does not quietly create a fresh node.  On the
empty forest, `find("A")` quietly creates the self-parented rank-0 node
`A` and returns it as its own root — no abort occurs. -/
theorem claim_C7_counterexample :
    UnionFind.empty.find "A" = (⟨[("A", "A")], [("A", 0)]⟩, "A") := by
  decide

/-- C7 (amended): calling `find` on an unregistered GenomeId is not an
error: the id is silently registered as a fresh singleton (self-parent,
rank 0, appended at the end of both tables) and returned as its own
root; `union` likewise registers unseen ids through its internal `find`
calls.  Nothing aborts. -/
theorem claim_C7 (s : UnionFind) (x : String) (hp : x ∉ keysList s.parent) :
    s.find x = (⟨s.parent ++ [(x, x)], dictSet s.rank x 0⟩, x) :=
  find_fresh s x hp

/-- C7 witness. -/
theorem claim_C7_witness :
    UnionFind.empty.find "B" = (⟨[] ++ [("B", "B")], dictSet [] "B" 0⟩, "B") :=
  claim_C7 UnionFind.empty "B" (by decide)

/-- C10: processing a malformed line is atomic.  Any line whose stripped
content has fewer than three tab-separated fields, or whose third field
fails to parse as a float, leaves the entire engine state unchanged: no
genome is registered in the forest or the discovered set, and neither
counter is incremented — the distance is parsed before any endpoint is
registered, so the caught exception precedes every mutation. -/
theorem claim_C10 (t : ℚ) (s : EngineState) (raw : String)
    (h : (splitOnChar '\t' (stripChars raw.data)).length < 3 ∨
      parseFloatChars ((splitOnChar '\t' (stripChars raw.data)).getD 2 []) = none) :
    processLine t s raw = s := by
  have hnone := malformed_parsedLine_none raw h
  simp [processLine, hnone]

/-- C10 witness. -/
theorem claim_C10_witness :
    processLine (mkRat 1 20) initState "X\tY" = initState :=
  claim_C10 (mkRat 1 20) initState "X\tY" (by decide)

/-- C9: for registered `a` and `b`, `union a b` is a no-op at the level of
the structure's semantic content when their roots coincide (the induced
partition and the whole rank table are unchanged; `find`'s path
compression may rewire parent pointers, but only toward the same roots).
Otherwise the root of smaller rank is attached under the root of larger
rank, and exactly when the two ranks are equal the surviving root's rank
is incremented by one, with no other rank change. -/
theorem claim_C9 (s : UnionFind) (a b : String) (hwf : UFwf s)
    (ha : a ∈ keysList s.parent) (hb : b ∈ keysList s.parent) :
    ∃ ra rb, Reaches s.parent a ra ∧ Reaches s.parent b rb ∧
      ((ra = rb ∧ (s.union a b).rank = s.rank ∧
          (∀ z r2, Reaches (s.union a b).parent z r2 ↔ Reaches s.parent z r2)) ∨
       (ra ≠ rb ∧ ∃ w l, ((w = ra ∧ l = rb) ∨ (w = rb ∧ l = ra)) ∧
          (alookup s.rank l).getD 0 ≤ (alookup s.rank w).getD 0 ∧
          alookup (s.union a b).parent l = some w ∧
          ((s.union a b).rank =
            if (alookup s.rank w).getD 0 = (alookup s.rank l).getD 0
            then dictSet s.rank w ((alookup s.rank w).getD 0 + 1) else s.rank))) := by
  obtain ⟨ra, rb, hra, hrb, -, -, hcase⟩ := union_spec hwf ha hb
  refine ⟨ra, rb, hra, hrb, ?_⟩
  rcases hcase with ⟨h1, h2, h3⟩ | ⟨h1, w, l, h2, h3, h4, h5, -⟩
  · exact Or.inl ⟨h1, h2, h3⟩
  · exact Or.inr ⟨h1, w, l, h2, h3, h4, h5⟩

/-- C9 witness. -/
theorem claim_C9_witness :
    ∃ ra rb,
      Reaches (runEngine (mkRat 1 20) ["A\tB\t0.5"]).uf.parent "A" ra ∧
      Reaches (runEngine (mkRat 1 20) ["A\tB\t0.5"]).uf.parent "B" rb ∧
      ((ra = rb ∧
          ((runEngine (mkRat 1 20) ["A\tB\t0.5"]).uf.union "A" "B").rank =
            (runEngine (mkRat 1 20) ["A\tB\t0.5"]).uf.rank ∧
          (∀ z r2,
            Reaches ((runEngine (mkRat 1 20) ["A\tB\t0.5"]).uf.union "A" "B").parent z r2 ↔
            Reaches (runEngine (mkRat 1 20) ["A\tB\t0.5"]).uf.parent z r2)) ∨
       (ra ≠ rb ∧ ∃ w l, ((w = ra ∧ l = rb) ∨ (w = rb ∧ l = ra)) ∧
          (alookup (runEngine (mkRat 1 20) ["A\tB\t0.5"]).uf.rank l).getD 0 ≤
            (alookup (runEngine (mkRat 1 20) ["A\tB\t0.5"]).uf.rank w).getD 0 ∧
          alookup ((runEngine (mkRat 1 20) ["A\tB\t0.5"]).uf.union "A" "B").parent l
            = some w ∧
          (((runEngine (mkRat 1 20) ["A\tB\t0.5"]).uf.union "A" "B").rank =
            if (alookup (runEngine (mkRat 1 20) ["A\tB\t0.5"]).uf.rank w).getD 0 =
               (alookup (runEngine (mkRat 1 20) ["A\tB\t0.5"]).uf.rank l).getD 0
            then dictSet (runEngine (mkRat 1 20) ["A\tB\t0.5"]).uf.rank w
              ((alookup (runEngine (mkRat 1 20) ["A\tB\t0.5"]).uf.rank w).getD 0 + 1)
            else (runEngine (mkRat 1 20) ["A\tB\t0.5"]).uf.rank))) :=
  claim_C9 (runEngine (mkRat 1 20) ["A\tB\t0.5"]).uf "A" "B"
    (runEngine_inv (mkRat 1 20) ["A\tB\t0.5"]).1 (by decide) (by decide)

/-- C4: single-linkage semantics of the final assignment.  For distinct
genomes `a`, `b` that appear in the final membership table, they carry
the same `cluster_id` exactly when a chain of parsed edges — each with
distinct endpoints and distance at or below the threshold — connects
them, regardless of the distance of the direct pair. -/
theorem claim_C4 (t : ℚ) (lines : List String) (a b : String) (_hab : a ≠ b)
    (ha : assignOf (runEngine t lines) a ≠ none)
    (hb : assignOf (runEngine t lines) b ≠ none) :
    ((assignOf (runEngine t lines) a).map Prod.fst =
      (assignOf (runEngine t lines) b).map Prod.fst) ↔ connected t lines a b := by
  obtain ⟨hwf, hreg, hbridge⟩ := runEngine_inv t lines
  have hamem : a ∈ keysList (runEngine t lines).uf.parent := by
    by_contra hh
    exact ha (assignOf_none hwf hh)
  have hbmem : b ∈ keysList (runEngine t lines).uf.parent := by
    by_contra hh
    exact hb (assignOf_none hwf hh)
  obtain ⟨ka, ra, msa, hka, hlooka, hgmsa, hnda, hreacha, hchara⟩ := assignOf_char hwf hamem
  obtain ⟨kb, rb, msb, hkb, hlookb, hgmsb, hndb, hreachb, hcharb⟩ := assignOf_char hwf hbmem
  constructor
  · intro hid
    rw [hlooka, hlookb] at hid
    have hk : ka = kb := by simpa using hid
    rw [hk] at hka
    have hrab : ra = rb := congrArg Prod.fst (Option.some_inj.mp (hka.symm.trans hkb))
    rw [hrab] at hreacha
    exact (hbridge a b hamem hbmem).mp ⟨rb, hreacha, hreachb⟩
  · intro hconn
    obtain ⟨r, hr1, hr2⟩ := (hbridge a b hamem hbmem).mpr hconn
    have hra : ra = r := reaches_det hreacha hr1
    have hrb : rb = r := reaches_det hreachb hr2
    have hnd : (keysList (sortClusters (clustersOf (runEngine t lines)))).Nodup := by
      have hperm : List.Perm (keysList (sortClusters (clustersOf (runEngine t lines))))
          (keysList (clustersOf (runEngine t lines))) :=
        List.Perm.map Prod.fst (sortClusters_perm _)
      exact hperm.nodup_iff.mpr (get_clusters_spec hwf).1
    rw [hra] at hka
    rw [hrb] at hkb
    have hkk : ka = kb := get?_keys_inj hnd hka hkb
    rw [hlooka, hlookb, hkk]
    rfl

/-- C4 witness. -/
theorem claim_C4_witness :
    ((assignOf (runEngine (mkRat 1 20) ["A\tB\t0.01", "B\tC\t0.9"]) "A").map Prod.fst =
      (assignOf (runEngine (mkRat 1 20) ["A\tB\t0.01", "B\tC\t0.9"]) "B").map Prod.fst) ↔
      connected (mkRat 1 20) ["A\tB\t0.01", "B\tC\t0.9"] "A" "B" :=
  claim_C4 (mkRat 1 20) ["A\tB\t0.01", "B\tC\t0.9"] "A" "B" (by decide) (by decide)
    (by decide)

/-- C8: threshold monotonicity.  For a fixed input stream and thresholds
`t1 ≤ t2`, every genome's cluster size under `t2` is at least its size
under `t1`, and the total number of clusters under `t2` is at most the
number under `t1`. -/
theorem claim_C8 (t1 t2 : ℚ) (lines : List String) (g : String) (ht : t1 ≤ t2) :
    (∀ k1 sz1, assignOf (runEngine t1 lines) g = some (k1, sz1) →
      ∃ k2 sz2, assignOf (runEngine t2 lines) g = some (k2, sz2) ∧ sz1 ≤ sz2) ∧
    numClusters (runEngine t2 lines) ≤ numClusters (runEngine t1 lines) := by
  obtain ⟨hwf1, hreg1, hbridge1⟩ := runEngine_inv t1 lines
  obtain ⟨hwf2, hreg2, hbridge2⟩ := runEngine_inv t2 lines
  have hkeys12 : ∀ z, z ∈ keysList (runEngine t1 lines).uf.parent ↔
      z ∈ keysList (runEngine t2 lines).uf.parent :=
    fun z => (hreg1 z).trans (hreg2 z).symm
  constructor
  · intro k1 sz1 hlook1
    have hgmem1 : g ∈ keysList (runEngine t1 lines).uf.parent := by
      by_contra hh
      rw [assignOf_none hwf1 hh] at hlook1
      exact absurd hlook1 (by simp)
    have hgmem2 : g ∈ keysList (runEngine t2 lines).uf.parent := (hkeys12 g).mp hgmem1
    obtain ⟨ka, ra, msa, hka, hlooka, hgmsa, hnda, hreacha, hchara⟩ :=
      assignOf_char hwf1 hgmem1
    obtain ⟨kb, rb, msb, hkb, hlookb, hgmsb, hndb, hreachb, hcharb⟩ :=
      assignOf_char hwf2 hgmem2
    refine ⟨kb, msb.length, hlookb, ?_⟩
    have hsz : sz1 = msa.length :=
      congrArg Prod.snd (Option.some_inj.mp (hlook1.symm.trans hlooka))
    rw [hsz]
    have hsub : ∀ x, x ∈ msa → x ∈ msb := by
      intro x hx
      obtain ⟨hxk1, hxr1⟩ := (hchara x).mp hx
      have hconn1 : connected t1 lines x g :=
        (hbridge1 x g hxk1 hgmem1).mp ⟨ra, hxr1, hreacha⟩
      have hconn2 : connected t2 lines x g := connected_t_mono ht lines x g hconn1
      have hxk2 : x ∈ keysList (runEngine t2 lines).uf.parent := (hkeys12 x).mp hxk1
      obtain ⟨r, hxr, hgr⟩ := (hbridge2 x g hxk2 hgmem2).mpr hconn2
      have hrrb : r = rb := reaches_det hgr hreachb
      rw [hrrb] at hxr
      exact (hcharb x).mpr ⟨hxk2, hxr⟩
    calc msa.length = msa.toFinset.card := (List.toFinset_card_of_nodup hnda).symm
    _ ≤ msb.toFinset.card := by
        apply Finset.card_le_card
        intro x hx
        rw [List.mem_toFinset] at hx ⊢
        exact hsub x hx
    _ ≤ msb.length := List.toFinset_card_le msb
  · rw [numClusters, numClusters,
      show (clustersOf (runEngine t1 lines)).length =
        (keysList (clustersOf (runEngine t1 lines))).length from
          (List.length_map _ _).symm,
      show (clustersOf (runEngine t2 lines)).length =
        (keysList (clustersOf (runEngine t2 lines))).length from
          (List.length_map _ _).symm]
    have hnd1 : (keysList (clustersOf (runEngine t1 lines))).Nodup :=
      (get_clusters_spec hwf1).1
    have hnd2 : (keysList (clustersOf (runEngine t2 lines))).Nodup :=
      (get_clusters_spec hwf2).1
    have hsub : ∀ r2, r2 ∈ keysList (clustersOf (runEngine t2 lines)) →
        r2 ∈ (keysList (clustersOf (runEngine t1 lines))).map
          (fun r => ((runEngine t2 lines).uf.find r).2) := by
      intro r2 hr2
      obtain ⟨hr2mem, hr2root⟩ := (reps_char hwf2 r2).mp hr2
      have hr2mem1 : r2 ∈ keysList (runEngine t1 lines).uf.parent := (hkeys12 r2).mpr hr2mem
      obtain ⟨r1, hr1⟩ := hwf1.2.2 r2 hr2mem1
      have hr1mem1 : r1 ∈ keysList (runEngine t1 lines).uf.parent :=
        reaches_mem (reaches_root_self hr1)
      have hr1rep : r1 ∈ keysList (clustersOf (runEngine t1 lines)) :=
        (reps_char hwf1 r1).mpr ⟨hr1mem1, reaches_root_self hr1⟩
      refine List.mem_map.mpr ⟨r1, hr1rep, ?_⟩
      have hr1mem2 : r1 ∈ keysList (runEngine t2 lines).uf.parent := (hkeys12 r1).mp hr1mem1
      obtain ⟨p2x, rr, heqf, hreachf, -, -⟩ := find_registered hwf2 hr1mem2
      have hconn1 : connected t1 lines r1 r2 :=
        (hbridge1 r1 r2 hr1mem1 hr2mem1).mp ⟨r1, reaches_root_self hr1, hr1⟩
      have hconn2 : connected t2 lines r1 r2 := connected_t_mono ht lines r1 r2 hconn1
      obtain ⟨r, ha1, ha2⟩ := (hbridge2 r1 r2 hr1mem2 hr2mem).mpr hconn2
      have hr2r : r = r2 := reaches_det ha2 hr2root
      have hrr : rr = r := reaches_det hreachf ha1
      rw [heqf]
      exact hrr.trans hr2r
    calc (keysList (clustersOf (runEngine t2 lines))).length
        = (keysList (clustersOf (runEngine t2 lines))).toFinset.card :=
          (List.toFinset_card_of_nodup hnd2).symm
    _ ≤ ((keysList (clustersOf (runEngine t1 lines))).map
          (fun r => ((runEngine t2 lines).uf.find r).2)).toFinset.card := by
        apply Finset.card_le_card
        intro x hx
        rw [List.mem_toFinset] at hx ⊢
        exact hsub x hx
    _ ≤ ((keysList (clustersOf (runEngine t1 lines))).map
          (fun r => ((runEngine t2 lines).uf.find r).2)).length :=
        List.toFinset_card_le _
    _ = (keysList (clustersOf (runEngine t1 lines))).length := List.length_map _ _

/-- C8 witness. -/
theorem claim_C8_witness :
    (∀ k1 sz1, assignOf (runEngine (mkRat 1 100) ["A\tB\t0.3"]) "A" = some (k1, sz1) →
      ∃ k2 sz2, assignOf (runEngine (mkRat 1 2) ["A\tB\t0.3"]) "A" = some (k2, sz2) ∧
        sz1 ≤ sz2) ∧
    numClusters (runEngine (mkRat 1 2) ["A\tB\t0.3"]) ≤
      numClusters (runEngine (mkRat 1 100) ["A\tB\t0.3"]) :=
  claim_C8 (mkRat 1 100) (mkRat 1 2) ["A\tB\t0.3"] "A" (by decide)
